import Mathlib

/-!
# Otter Browser: `JsonSettings` (src/core/JsonSettings.cpp)

A shallow embedding of the settings document of Otter Browser: the loader
(the constructor `JsonSettings::JsonSettings(const QString &)`), the writer
(`JsonSettings::save`) and the in-place indentation scan that `save` runs over
the serialized JSON bytes.

Conventions of the embedding:

* a byte (`char` of a `QByteArray`) and a UTF-16 code unit (`QChar` of a
  `QString`) are natural numbers; byte arrays and strings are lists of them;
* C++ `int` variables are integers (`Int`); a `QByteArray` holds fewer than
  `2^31` bytes, so no arithmetic of the scan can overflow;
* functions of the Qt library that the source calls are modelled after their
  Qt 5 implementation (`QByteArray::replace`, `QString::split`,
  `QTextStream::readLine`), or taken as parameters when they are too large to
  model (the UTF-8 codec of `QTextStream`, `QJsonDocument::toJson` and
  `QJsonDocument::fromJson`);
* a loop is run on fuel and yields `none` when the fuel runs out; that the
  loops of the source finish is part of what is proved about them;
* the file system answers two questions for `save` (does the open succeed,
  does the commit succeed); a write to an open file succeeds.
-/

namespace Otter

/-- One `char` of a `QByteArray`. -/
abbrev Byte := Nat

/-- Qt byte array: a sequence of bytes. -/
abbrev QByteArray := List Byte

/-- One UTF-16 code unit of a `QString`. -/
abbrev QChar := Nat

/-- Qt string: a sequence of UTF-16 code units. -/
abbrev QString := List QChar

/-- The code units (equally: the bytes) of an ASCII literal. -/
def ascii (s : String) : List Nat := s.toList.map Char.toNat

/-- The byte `'\n'`. -/
def LF : Nat := 10

/-- The byte `' '`. -/
def SPACE : Nat := 32

/-- The byte `'\t'`. -/
def TAB : Nat := 9

/-- The byte `'\r'`. -/
def CR : Nat := 13

/-- The byte `'/'`. -/
def SLASH : Nat := 47

/-! ## `QByteArray` operations used by the indentation scan -/

/-- `QByteArray::at(i)`: the byte at index `i`; the call is only defined for
`0 <= i < size()`. -/
def byteAt (d : QByteArray) (i : Int) : Option Byte :=
  if 0 ≤ i ∧ i < (d.length : Int) then d.get? i.toNat else none

/-- `QByteArray::remove(pos, len)` (Qt 5): nothing happens when `len <= 0` or
`uint(pos) >= uint(size)`; a `len` that reaches past the end truncates. -/
def qRemove (d : QByteArray) (pos len : Int) : QByteArray :=
  if len ≤ 0 ∨ pos < 0 ∨ (d.length : Int) ≤ pos then d
  else if (d.length : Int) - pos ≤ len then d.take pos.toNat
  else d.take pos.toNat ++ d.drop (pos + len).toNat

/-- `QByteArray::insert(pos, ba)` (Qt 5, `qbytearray_insert`): nothing happens
for a negative position or an empty `ba`; a position past the end pads with
spaces. -/
def qInsert (d : QByteArray) (pos : Int) (ba : QByteArray) : QByteArray :=
  if pos < 0 ∨ ba.length = 0 then d
  else if (d.length : Int) < pos then
    d ++ List.replicate (pos.toNat - d.length) SPACE ++ ba
  else d.take pos.toNat ++ ba ++ d.drop pos.toNat

/-- `QByteArray::replace(pos, len, after)` (Qt 5): overwrite in place when the
lengths agree and the range is inside the array, otherwise `remove` followed by
`insert`. -/
def qReplace (d : QByteArray) (pos len : Int) (after : QByteArray) : QByteArray :=
  if len = (after.length : Int) ∧ pos + len ≤ (d.length : Int) then
    d.take pos.toNat ++ after ++ d.drop (pos + len).toNat
  else qInsert (qRemove d pos len) pos after

/-! ## The indentation scan of `JsonSettings::save` (lines 171-213) -/

/-- The local variables of the scan: the byte array being rewritten, the loop
cursor `i` and the per-line counters. -/
structure ScanState where
  data : QByteArray
  i : Int
  spacesAmount : Int
  tabsAmount : Int
  lineStartPosition : Int
  isReplacingSpaces : Bool
deriving Repr, DecidableEq

/-- The state before the first iteration (lines 171-175 and `int i = 0`). -/
def scanInit (data : QByteArray) : ScanState :=
  { data := data, i := 0, spacesAmount := 0, tabsAmount := 0,
    lineStartPosition := 0, isReplacingSpaces := true }

/-- The loop condition `i < data.count()`. -/
def scanCond (s : ScanState) : Bool := decide (s.i < (s.data.length : Int))

/-- One iteration of the loop: the body (lines 179-212) followed by `++i`.
`none` when `data.at(i)` is called outside the array. -/
def scanStep (s : ScanState) : Option ScanState :=
  match byteAt s.data s.i with
  | none => none
  | some character =>
    if character = LF then
      some { s with spacesAmount := 0, tabsAmount := 0,
                    lineStartPosition := s.i + 1, isReplacingSpaces := true,
                    i := s.i + 1 }
    else if s.isReplacingSpaces then
      if character = SPACE then
        if s.spacesAmount + 1 = 4 then
          some { s with spacesAmount := 0, tabsAmount := s.tabsAmount + 1, i := s.i + 1 }
        else
          some { s with spacesAmount := s.spacesAmount + 1, i := s.i + 1 }
      else if 0 < s.tabsAmount then
        some { s with
          data := qReplace s.data s.lineStartPosition (s.tabsAmount * 4)
                    (List.replicate s.tabsAmount.toNat TAB),
          i := s.i - s.tabsAmount * 3 + 1,
          isReplacingSpaces := false }
      else
        some { s with isReplacingSpaces := false, i := s.i + 1 }
    else
      some { s with i := s.i + 1 }

/-- The `for` loop, run for at most `fuel` iterations: `some data` is the byte
array when the loop condition fails; `none` when the fuel runs out while the
condition still holds, or when an iteration reads outside the array. -/
def scanLoop : Nat → ScanState → Option QByteArray
  | 0, s => if scanCond s then none else some s.data
  | fuel + 1, s => if scanCond s then (scanStep s).bind (scanLoop fuel) else some s.data

/-- The indentation scan applied to the bytes of `toJson()`: the bytes that
`file->write(data)` writes. One iteration per input byte is allowed. -/
def transcode (data : QByteArray) : Option QByteArray :=
  scanLoop data.length (scanInit data)

/-! ## The line-oriented description of the transform -/

/-- Single pass description of the scan result. `mode = some k`: the bytes
read so far on the current line are `k` spaces, which are still held back;
`mode = none`: the first non-space byte of the line has been passed. -/
def tabify : Option Nat → List Byte → List Byte
  | none, [] => []
  | some k, [] => List.replicate k SPACE
  | none, c :: r => if c = LF then LF :: tabify (some 0) r else c :: tabify none r
  | some k, c :: r =>
    if c = LF then List.replicate k SPACE ++ LF :: tabify (some 0) r
    else if c = SPACE then tabify (some (k + 1)) r
    else List.replicate (k / 4) TAB ++ List.replicate (k % 4) SPACE ++ c :: tabify none r

/-- The lines of a byte array or string: the pieces between the separators
(as `QString::split` with one separator character, empty parts kept). A
sequence with `n` separators has `n + 1` lines. -/
def splitOnSep (sep : Nat) : List Nat → List (List Nat)
  | [] => [[]]
  | c :: r =>
    if c = sep then [] :: splitOnSep sep r
    else
      match splitOnSep sep r with
      | [] => [[c]]
      | l :: ls => (c :: l) :: ls

/-- The lines joined again with the separator between them
(`QStringList::join`). -/
def joinSep (sep : Nat) : List (List Nat) → List Nat
  | [] => []
  | [l] => l
  | l :: m :: ls => l ++ sep :: joinSep sep (m :: ls)

/-- The rewrite of one line: a line of spaces only is kept; otherwise the `k`
leading spaces become `k / 4` tabs followed by `k % 4` spaces. -/
def transcodeLine (line : List Byte) : List Byte :=
  let k := (line.takeWhile (· = SPACE)).length
  let rest := line.dropWhile (· = SPACE)
  if rest = [] then line
  else List.replicate (k / 4) TAB ++ List.replicate (k % 4) SPACE ++ rest

/-- The line-oriented transform: split on newlines, rewrite every line, join. -/
def transcodeLines (data : QByteArray) : QByteArray :=
  joinSep LF ((splitOnSep LF data).map transcodeLine)

/-! ## Strings, the text codec and the JSON document -/

/-- The text codec both text streams are given with `setCodec("UTF-8")`:
`toUnicode` decodes the bytes of the device, `fromUnicode` encodes the text
written to the stream. The codec belongs to Qt and is a parameter of the
embedding. -/
structure TextCodec where
  toUnicode : QByteArray → QString
  fromUnicode : QString → QByteArray

/-- UTF-8 on ASCII text: every code unit is one byte of the same value. -/
def asciiCodec : TextCodec := { toUnicode := fun b => b, fromUnicode := fun s => s }

/-- `QString::startsWith(QLatin1String("//"))`. -/
def startsWithSlashes (line : QString) : Bool := decide (line.take 2 = [SLASH, SLASH])

/-- `QString::mid(position)`: the string from `position` on, empty when the
string is shorter. -/
def mid (s : QString) (position : Nat) : QString := s.drop position

/-- A JSON value (`QJsonValue`). A number is a finite C++ `double`, held as
the rational number it denotes. `undefined` is the value `QJsonObject::value`
returns for a key the object does not hold. -/
inductive QJsonValue where
  | undefined
  | null
  | bool (b : Bool)
  | number (d : Rat)
  | string (s : QString)
  | array (items : List QJsonValue)
  | object (members : List (QString × QJsonValue))

/-- `QJsonArray`. -/
abbrev QJsonArray := List QJsonValue

/-- `QJsonObject`. -/
abbrev QJsonObject := List (QString × QJsonValue)

/-- `QJsonDocument`: null (default constructed, or the result of a failed
parse), or holding an array, or holding an object. -/
inductive QJsonDocument where
  | null
  | array (a : QJsonArray)
  | object (o : QJsonObject)

/-- `QJsonDocument::isArray()`. -/
def QJsonDocument.isArray : QJsonDocument → Bool
  | .array _ => true
  | _ => false

/-- `QJsonDocument::isObject()`. -/
def QJsonDocument.isObject : QJsonDocument → Bool
  | .object _ => true
  | _ => false

/-- `QJsonDocument::array()`: the array of the document, the empty array when
the document holds none. -/
def QJsonDocument.toArray : QJsonDocument → QJsonArray
  | .array a => a
  | _ => []

/-- `QJsonDocument::object()`: the object of the document, the empty object
when the document holds none. -/
def QJsonDocument.toObject : QJsonDocument → QJsonObject
  | .object o => o
  | _ => []

/-! ## The loader: `JsonSettings::JsonSettings(const QString &path)` -/

/-- The object state: the `QJsonDocument` base object and the three members. -/
structure JsonSettings where
  document : QJsonDocument
  m_path : QString
  m_comment : QString
  m_hasError : Bool

/-- The bytes `QTextStream::readLine` consumes from the unread bytes of the
device: the bytes before the first line feed, which is consumed as well, and
the bytes left unread. In UTF-8 a line feed character is exactly one `LF`
byte. -/
def readLineBytes : QByteArray → QByteArray × QByteArray
  | [] => ([], [])
  | c :: r =>
    if c = LF then ([], r)
    else ((c :: (readLineBytes r).1), (readLineBytes r).2)

/-- The end of line handling of `QTextStream::readLine`: a carriage return
right before the line feed (or at the end of the data) is not part of the
line. -/
def stripCR (line : QString) : QString :=
  if line.getLast? = some CR then line.dropLast else line

/-- The text `readLine` returns for the bytes of one line. -/
def lineText (codec : TextCodec) (lineBytes : QByteArray) : QString :=
  stripCR (codec.toUnicode lineBytes)

/-- The `while (!stream.atEnd())` loop of lines 55-67, run for at most `fuel`
iterations on the unread bytes of the stream. The result is the list
`comment` and the bytes that are unread when the loop is left, which is where
`stream.pos()` points. `none` when the fuel runs out. -/
def headerLoop (codec : TextCodec) : Nat → List QString → QByteArray →
    Option (List QString × QByteArray)
  | 0, comment, unread => if unread.isEmpty then some (comment, unread) else none
  | fuel + 1, comment, unread =>
    if unread.isEmpty then some (comment, unread)
    else
      let line := lineText codec (readLineBytes unread).1
      if startsWithSlashes line then
        headerLoop codec fuel (comment ++ [mid line 3]) (readLineBytes unread).2
      else
        some (comment, (readLineBytes unread).2)

/-- Lines 47-76: the comment and the bytes that `file.readAll()` returns to
the JSON parser. One loop iteration per byte of the file is allowed. -/
def splitHeader (codec : TextCodec) (bytes : QByteArray) : Option (QString × QByteArray) :=
  if bytes.take 2 = [SLASH, SLASH] then
    match headerLoop codec bytes.length [] bytes with
    | none => none
    | some (comment, unread) => some (joinSep LF comment, unread)
  else
    some ([], bytes)

/-- Lines 78-87: the document that is kept from the parsed one. -/
def adoptDocument (document : QJsonDocument) : QJsonDocument :=
  if document.isArray then .array document.toArray else .object document.toObject

/-- The constructor on a file that was opened: `bytes` is its content and
`fromJson` is `QJsonDocument::fromJson`. -/
def loadBytes (codec : TextCodec) (fromJson : QByteArray → QJsonDocument)
    (path : QString) (bytes : QByteArray) : Option JsonSettings :=
  match splitHeader codec bytes with
  | none => none
  | some (comment, body) =>
    some { document := adoptDocument (fromJson body), m_path := path,
           m_comment := comment, m_hasError := false }

/-- The constructor: `file` is the content of the file at `path`, or `none`
when `file.open(QIODevice::ReadOnly)` fails. -/
def load (codec : TextCodec) (fromJson : QByteArray → QJsonDocument)
    (path : QString) (file : Option QByteArray) : Option JsonSettings :=
  match file with
  | none => some { document := .null, m_path := path, m_comment := [], m_hasError := false }
  | some bytes => loadBytes codec fromJson path bytes

/-- The lines a text stream delivers when it is read to its end: the pieces
between the line feeds, without a last empty piece (a stream is at its end
right after a final line feed). -/
def streamLines (bytes : QByteArray) : List QByteArray :=
  if (splitOnSep LF bytes).getLast? = some [] then (splitOnSep LF bytes).dropLast
  else splitOnSep LF bytes

/-- The header lines of a file: the maximal initial run of stream lines whose
text begins with two slashes. -/
def headerLines (codec : TextCodec) (bytes : QByteArray) : List QString :=
  ((streamLines bytes).map (lineText codec)).takeWhile startsWithSlashes

/-! ## The writer: `JsonSettings::save` -/

/-- One call on the file system made by `save`. -/
inductive FileOp where
  | openWrite (path : QString) (isAtomic : Bool)
  | write (path : QString) (bytes : QByteArray)
  | commit (path : QString)
  | close (path : QString)

/-- The file system as `save` sees it: the content of every file, whether
opening a path for writing succeeds (for `QFile` and for `QSaveFile`),
whether `QSaveFile::commit` succeeds, and the calls made so far. -/
structure FileSystem where
  files : QString → Option QByteArray
  canOpen : QString → Bool → Bool
  canCommit : QString → Bool
  log : List FileOp

/-- The content of `path` becomes `bytes`. -/
def FileSystem.store (fs : FileSystem) (path : QString) (bytes : QByteArray) : FileSystem :=
  { fs with files := fun p => if p = path then some bytes else fs.files p }

/-- The calls `ops` are appended to the log. -/
def FileSystem.record (fs : FileSystem) (ops : List FileOp) : FileSystem :=
  { fs with log := fs.log ++ ops }

/-- The loop of lines 163-166: every comment line is streamed as `"// "`, the
line and a line feed. -/
def streamCommentLines : List QString → QString
  | [] => []
  | line :: rest => ascii "// " ++ line ++ [LF] ++ streamCommentLines rest

/-- Lines 156-169: the text the stream holds when it is flushed, for a
comment that is not empty. -/
def commentBlock (comment : QString) : QString :=
  streamCommentLines (splitOnSep LF comment) ++ [LF]

/-- The bytes written before the JSON data: nothing for an empty comment,
otherwise the encoded comment block. -/
def headerBytes (codec : TextCodec) (comment : QString) : QByteArray :=
  if comment.isEmpty then [] else codec.fromUnicode (commentBlock comment)

/-- The path `save` opens: the argument, or the stored path when the argument
is empty. -/
def effectivePath (self : JsonSettings) (path : QString) : QString :=
  if path.isEmpty then self.m_path else path

/-- `JsonSettings::save(path, isAtomic)`; `toJson` is `QJsonDocument::toJson`.
The result is the returned `bool`, the object and the file system after the
call; `none` when the indentation scan does not finish. A `QFile` opened for
writing and closed again holds exactly the bytes written; a `QSaveFile` gives
its target these bytes when `commit` succeeds and leaves it untouched
otherwise. -/
def save (codec : TextCodec) (toJson : QJsonDocument → QByteArray)
    (self : JsonSettings) (fs : FileSystem) (path : QString) (isAtomic : Bool) :
    Option (Bool × JsonSettings × FileSystem) :=
  if path.isEmpty ∧ self.m_path.isEmpty then
    some (false, { self with m_hasError := true }, fs)
  else
    let target := effectivePath self path
    if fs.canOpen target isAtomic = false then
      some (false, { self with m_hasError := true },
        fs.record [FileOp.openWrite target isAtomic])
    else
      let opened : JsonSettings := { self with m_hasError := false }
      let header := headerBytes codec self.m_comment
      match transcode (toJson self.document) with
      | none => none
      | some data =>
        if isAtomic then
          if fs.canCommit target then
            some (true, opened, (fs.store target (header ++ data)).record
              [FileOp.openWrite target true, FileOp.write target header,
               FileOp.write target data, FileOp.commit target])
          else
            some (false, opened, fs.record
              [FileOp.openWrite target true, FileOp.write target header,
               FileOp.write target data, FileOp.commit target])
        else
          some (true, opened, (fs.store target (header ++ data)).record
            [FileOp.openWrite target false, FileOp.write target header,
             FileOp.write target data, FileOp.close target])

/-! ## What the round trip needs from the Qt library -/

/-- The byte `'"'`. -/
def QUOTE : Nat := 34

/-- The byte `'\\'`. -/
def BACKSLASH : Nat := 92

/-- Where a scanner of JSON text stands: between tokens or inside a token
that is not a string, inside a string literal, or right after a backslash
inside a string literal. -/
inductive LexState where
  | outside
  | inString
  | escaped
deriving DecidableEq, Repr

/-- The lexical state after one more byte. -/
def lexStep : LexState → Byte → LexState
  | .outside, c => if c = QUOTE then .inString else .outside
  | .inString, c =>
    if c = BACKSLASH then .escaped else if c = QUOTE then .outside else .inString
  | .escaped, _ => .inString

/-- The four JSON whitespace bytes. -/
def isJsonSpace (c : Byte) : Bool :=
  decide (c = SPACE) || decide (c = TAB) || decide (c = LF) || decide (c = CR)

/-- JSON text with every run of whitespace outside string literals replaced
by a single space. `pending` tells that a run is being skipped. Two texts with
the same normal form differ only in how their whitespace runs between tokens
are made up. -/
def wsNormalize : LexState → Bool → List Byte → List Byte
  | _, pending, [] => if pending then [SPACE] else []
  | .outside, pending, c :: r =>
    if isJsonSpace c then wsNormalize .outside true r
    else (if pending then [SPACE] else []) ++ c :: wsNormalize (lexStep .outside c) false r
  | .inString, _, c :: r => c :: wsNormalize (lexStep .inString c) false r
  | .escaped, _, c :: r => c :: wsNormalize (lexStep .escaped c) false r

/-- No newline byte lies inside a string literal: at every newline the
scanner is outside. This holds of serialized JSON, where a newline inside a
string is written as an escape sequence. -/
def newlinesOutsideStrings : LexState → List Byte → Bool
  | _, [] => true
  | st, c :: r =>
    (decide (c ≠ LF) || decide (st = LexState.outside)) && newlinesOutsideStrings (lexStep st c) r

/-- What the round trip of the document `value` needs from `QJsonDocument`:
the parser reads back what the serializer writes; the parser does not
distinguish texts that differ only in the make-up of whitespace runs between
tokens; the serializer escapes newlines inside strings; and the serialized
text begins with a brace or a bracket. -/
def JsonFaithful (toJson : QJsonDocument → QByteArray) (fromJson : QByteArray → QJsonDocument)
    (value : QJsonDocument) : Prop :=
  fromJson (toJson value) = value ∧
  (∀ a b, wsNormalize .outside false a = wsNormalize .outside false b →
      fromJson a = fromJson b) ∧
  newlinesOutsideStrings .outside (toJson value) = true ∧
  ((toJson value).head? = some 123 ∨ (toJson value).head? = some 91)

/-- What the round trip of the comment needs from the UTF-8 codec: the empty
byte sequence decodes to the empty string; the comment block is encoded line
by line, its ASCII frame (`"// "` and the newlines) as itself; the encoding
of a comment line holds no newline byte; and a written header line decodes
back to the text it was written from. This holds of UTF-8 for every comment
that is well-formed UTF-16. -/
def CodecFaithful (codec : TextCodec) (comment : QString) : Prop :=
  codec.toUnicode [] = [] ∧
  codec.fromUnicode (commentBlock comment)
    = ((splitOnSep LF comment).map
        (fun line => ascii "// " ++ codec.fromUnicode line ++ [LF])).flatten ++ [LF] ∧
  ∀ line ∈ splitOnSep LF comment,
    LF ∉ codec.fromUnicode line ∧
    codec.toUnicode (ascii "// " ++ codec.fromUnicode line) = ascii "// " ++ line

/-- No line of the comment ends with a carriage return. -/
def NoLineEndsWithCR (comment : QString) : Prop :=
  ∀ line ∈ splitOnSep LF comment, line.getLast? ≠ some CR

/-! ## Concrete objects used to evaluate the embedding -/

/-- A file system without files in which every open for writing succeeds and
`QSaveFile::commit` succeeds exactly when `commitOk` is set. -/
def emptyFs (commitOk : Bool) : FileSystem :=
  { files := fun _ => none, canOpen := fun _ _ => true, canCommit := fun _ => commitOk,
    log := [] }

/-- What `QJsonDocument::toJson` writes for the empty object, for the empty
array and, for a null document, nothing. Other documents are not covered. -/
def toJsonOfEmpty : QJsonDocument → QByteArray
  | .null => []
  | .array _ => ascii "[\n]\n"
  | .object _ => ascii "\x7b\n\x7d\n"

/-- A settings object holding the empty JSON object. -/
def emptySettings (path comment : QString) : JsonSettings :=
  { document := .object [], m_path := path, m_comment := comment, m_hasError := false }

/-- The parser `QJsonDocument::fromJson` on the texts of the empty object and
of the empty array, whatever whitespace they hold between the tokens; every
other text is taken as not parsable. -/
def fromJsonOfEmpty (bytes : QByteArray) : QJsonDocument :=
  if (wsNormalize .outside false bytes).filter (· ≠ SPACE) = ascii "\x7b\x7d" then .object []
  else if (wsNormalize .outside false bytes).filter (· ≠ SPACE) = ascii "[]" then .array []
  else .null

/-! ## The geometry reader: `JsonSettings::readRectangle` -/

/-- The character `','`. -/
def COMMA : Nat := 44

/-- `QChar::isSpace()`: the ASCII white space characters, next line, no-break
space and the Unicode separators. -/
def isSpace (c : QChar) : Bool :=
  decide (c = 32) || (decide (9 ≤ c) && decide (c ≤ 13)) || decide (c = 133) || decide (c = 160)
    || decide (c = 5760) || (decide (8192 ≤ c) && decide (c ≤ 8202)) || decide (c = 8232)
    || decide (c = 8233) || decide (c = 8239) || decide (c = 8287) || decide (c = 12288)

/-- The state of `QString::simplified()` while it copies: nothing copied yet,
inside a word, or in white space after a word. -/
inductive SimplifyState where
  | start
  | word
  | gap

/-- The copy loop of `QString::simplified()`: white space at the start and at
the end is dropped, every run of white space between two words becomes one
space. -/
def simplifiedFrom : SimplifyState → QString → QString
  | _, [] => []
  | .start, c :: r => if isSpace c then simplifiedFrom .start r else c :: simplifiedFrom .word r
  | .word, c :: r => if isSpace c then simplifiedFrom .gap r else c :: simplifiedFrom .word r
  | .gap, c :: r =>
    if isSpace c then simplifiedFrom .gap r else SPACE :: c :: simplifiedFrom .word r

/-- `QString::simplified()`. -/
def simplified (s : QString) : QString := simplifiedFrom .start s

/-- White space at the end of a string removed. -/
def dropTrailingSpaces : QString → QString
  | [] => []
  | c :: r =>
    if isSpace c && (dropTrailingSpaces r).isEmpty then [] else c :: dropTrailingSpaces r

/-- `QString::trimmed()`: white space removed from the start and the end. -/
def trimmed (s : QString) : QString := dropTrailingSpaces (s.dropWhile isSpace)

/-- A decimal digit `'0'` to `'9'`. -/
def isDigit (c : QChar) : Bool := decide (48 ≤ c) && decide (c ≤ 57)

/-- A sign character: `'+'`, `'-'` or the Unicode minus sign. -/
def isSign (c : QChar) : Bool := decide (c = 43) || decide (c = 45) || decide (c = 8722)

/-- The number a run of decimal digits denotes, after the digits in `acc`. -/
def digitsValue : Int → QString → Int
  | acc, [] => acc
  | acc, c :: r => digitsValue (acc * 10 + ((c : Int) - 48)) r

/-- The conversion of a text without leading white space (`qstrtoll` on the C
locale form of the text, then the range check of `QString::toInt`): an
optional sign, then decimal digits, at least one, then nothing but white
space; the number has to be an `int`. Every other text gives 0. -/
def toIntCore (t : QString) : Int :=
  let negative : Bool := decide (t.head? = some 45) || decide (t.head? = some 8722)
  let u : QString := if (t.head?.map isSign).getD false then t.tail else t
  let digits := u.takeWhile isDigit
  let rest := u.dropWhile isDigit
  if digits.isEmpty || !(rest.all isSpace) then 0
  else
    let v : Int := if negative then - digitsValue 0 digits else digitsValue 0 digits
    if -2147483648 ≤ v ∧ v ≤ 2147483647 then v else 0

/-- `QString::toInt()` (base 10, C locale): white space around the number is
skipped; a text that is not a valid `int` gives 0. -/
def toInt (s : QString) : Int := toIntCore (s.dropWhile isSpace)

/-- The `int` a text denotes when the whole text is an optional sign followed
by one or more decimal digits and the number is in the range of `int`;
`none` for every other text. -/
def decimalValue (t : QString) : Option Int :=
  let negative : Bool := decide (t.head? = some 45) || decide (t.head? = some 8722)
  let u : QString := if (t.head?.map isSign).getD false then t.tail else t
  if u.isEmpty || !(u.all isDigit) then none
  else
    let v : Int := if negative then - digitsValue 0 u else digitsValue 0 u
    if -2147483648 ≤ v ∧ v ≤ 2147483647 then some v else none

/-- A C++ `int` result: the value wrapped to 32 bits, two's complement. -/
def wrapInt (n : Int) : Int := (n + 2147483648) % 4294967296 - 2147483648

/-- `QRect`: the coordinates of the left, top, right and bottom edge. -/
structure QRect where
  x1 : Int
  y1 : Int
  x2 : Int
  y2 : Int
deriving DecidableEq, Repr

/-- `QRect()`: the null rectangle. -/
def QRect.null : QRect := { x1 := 0, y1 := 0, x2 := -1, y2 := -1 }

/-- `QRect(int left, int top, int width, int height)`. -/
def QRect.ofGeometry (left top width height : Int) : QRect :=
  { x1 := left, y1 := top, x2 := wrapInt (left + width - 1), y2 := wrapInt (top + height - 1) }

/-- `QRect::x()`. -/
def QRect.x (r : QRect) : Int := r.x1

/-- `QRect::y()`. -/
def QRect.y (r : QRect) : Int := r.y1

/-- `QRect::width()`. -/
def QRect.width (r : QRect) : Int := wrapInt (r.x2 - r.x1 + 1)

/-- `QRect::height()`. -/
def QRect.height (r : QRect) : Int := wrapInt (r.y2 - r.y1 + 1)

/-- `QJsonValue::toInt()` (default value 0): the number when the value is a
number that is an `int`, otherwise 0. -/
def QJsonValue.toInt : QJsonValue → Int
  | .number d =>
    if d.den = 1 ∧ -2147483648 ≤ d.num ∧ d.num ≤ 2147483647 then d.num else 0
  | _ => 0

/-- `QJsonObject::value(key)`: the value of the member `key`, undefined when
the object has no such member. -/
def QJsonObject.value : QJsonObject → QString → QJsonValue
  | [], _ => .undefined
  | (k, v) :: rest, key => if k = key then v else QJsonObject.value rest key

/-- `JsonSettings::readRectangle(value)`. -/
def readRectangle (value : QJsonValue) : QRect :=
  match value with
  | .string s =>
    let geometry := splitOnSep COMMA s
    if geometry.length = 4 then
      QRect.ofGeometry (toInt (simplified (geometry.getD 0 [])))
        (toInt (simplified (geometry.getD 1 [])))
        (toInt (simplified (geometry.getD 2 [])))
        (toInt (simplified (geometry.getD 3 [])))
    else QRect.null
  | .object object =>
    QRect.ofGeometry (QJsonObject.value object (ascii "x")).toInt
      (QJsonObject.value object (ascii "y")).toInt
      (QJsonObject.value object (ascii "width")).toInt
      (QJsonObject.value object (ascii "height")).toInt
  | _ => QRect.null

/-! ## Runs of the indentation scan -/

/-- The first `n` iterations of the loop: `none` when the loop has ended
before, or when an iteration reads outside the array. -/
def scanRun : Nat → ScanState → Option ScanState
  | 0, s => some s
  | n + 1, s => if scanCond s then (scanStep s).bind (scanRun n) else none

/-- The distance from the cursor to the end of the array. -/
def scanRemaining (s : ScanState) : Int := (s.data.length : Int) - s.i

/-- Whether the iteration at `s` runs the `replace` of line 205: the byte at
the cursor is the first byte of its line that is not a space, it is not a
newline, and at least one group of four spaces precedes it. -/
def scanReplaces (s : ScanState) : Bool :=
  match byteAt s.data s.i with
  | none => false
  | some character =>
    decide (character ≠ LF) && s.isReplacingSpaces && decide (character ≠ SPACE)
      && decide (0 < s.tabsAmount)

/-- The shape of the states the scan passes through. Either the cursor is in
the leading spaces of a line: the array is `done`, then `k` spaces, then the
rest, the cursor is behind the spaces and the counters hold `k % 4` and
`k / 4`. Or the first non-space byte of the line has been passed: the array is
`done` and the rest, and the cursor is behind `done`. -/
def ScanInv (s : ScanState) : Prop :=
  ∃ (done rest : QByteArray) (k : Nat),
    (s.isReplacingSpaces = true ∧ s.data = done ++ List.replicate k SPACE ++ rest ∧
      s.i = ((done.length + k : Nat) : Int) ∧ s.spacesAmount = ((k % 4 : Nat) : Int) ∧
      s.tabsAmount = ((k / 4 : Nat) : Int) ∧ s.lineStartPosition = (done.length : Int)) ∨
    (s.isReplacingSpaces = false ∧ s.data = done ++ rest ∧ s.i = (done.length : Int))

/-- Every tab byte replaced by four spaces. -/
def expandTabs : List Byte → List Byte
  | [] => []
  | c :: r => if c = TAB then SPACE :: SPACE :: SPACE :: SPACE :: expandTabs r else c :: expandTabs r

/-- The state of the scan of five spaces and `x` when the cursor has reached
the `x`: one group of four spaces and one more space have been counted. -/
def stateAtFirstByte : ScanState :=
  { data := ascii "     x", i := 5, spacesAmount := 1, tabsAmount := 1,
    lineStartPosition := 0, isReplacingSpaces := true }

/-! ## Header lines and object members, described apart from the code -/

/-- A line of text without the carriage return that ends it, when one does. -/
def withoutFinalCR : QString → QString
  | [] => []
  | [c] => if c = CR then [] else [c]
  | c :: d :: r => c :: withoutFinalCR (d :: r)

/-- The comment lines of a file, as text: the pieces of the file between line
feeds (without a last empty piece), each decoded and without a carriage return
at its end, as far as they begin with two slashes one after the other from
the first line on. -/
def commentLines (codec : TextCodec) (bytes : QByteArray) : List QString :=
  ((streamLines bytes).map (fun piece => withoutFinalCR (codec.toUnicode piece))).takeWhile
    (fun line => decide (line.take 2 = [SLASH, SLASH]))

/-- The integer value of the member `name` of an object: the number of the
first member of that name when it is an integer in the range of `int`, and 0
when there is no such member or it holds anything else. -/
def memberInt (object : QJsonObject) (name : QString) : Int :=
  match object.find? (fun member => decide (member.1 = name)) with
  | some (_, .number d) =>
    if d.den = 1 ∧ -2147483648 ≤ d.num ∧ d.num ≤ 2147483647 then d.num else 0
  | _ => 0

/-- The object of the rectangle example of the specification. -/
def exampleGeometry : QJsonObject :=
  [(ascii "x", .number 1), (ascii "y", .number 2), (ascii "width", .number 3),
   (ascii "height", .number 4)]

/-! ## The scan computes the line-oriented transform -/

theorem byteAt_append_cons (done rest : QByteArray) (c : Byte) :
    byteAt (done ++ c :: rest) (done.length : Int) = some c := by
  unfold byteAt
  have h : (0 : Int) ≤ (done.length : Int) ∧
      (done.length : Int) < ((done ++ c :: rest).length : Int) := by
    constructor
    · exact Int.ofNat_nonneg _
    · simp only [List.length_append, List.length_cons]; omega
  rw [if_pos h, Int.toNat_natCast, List.get?_eq_getElem?,
    List.getElem?_append_right (le_refl _)]
  simp

theorem qRemove_mid (a b c : QByteArray) (hb : 0 < b.length) :
    qRemove (a ++ b ++ c) (a.length : Int) (b.length : Int) = a ++ c := by
  unfold qRemove
  have h1 : ¬ ((b.length : Int) ≤ 0 ∨ (a.length : Int) < 0 ∨
      ((a ++ b ++ c).length : Int) ≤ (a.length : Int)) := by
    simp only [List.length_append]; omega
  rw [if_neg h1]
  have e1 : ((a.length : Int)).toNat = a.length := Int.toNat_natCast _
  have e2 : ((a.length : Int) + (b.length : Int)).toNat = a.length + b.length := by omega
  have t1 : (a ++ b ++ c).take a.length = a := by
    rw [List.append_assoc]; exact List.take_left' rfl
  have t2 : (a ++ b ++ c).drop (a.length + b.length) = c := by
    exact List.drop_left' (by simp)
  by_cases h2 : ((a ++ b ++ c).length : Int) - (a.length : Int) ≤ (b.length : Int)
  · rw [if_pos h2, e1, t1]
    have hc : c.length = 0 := by
      simp only [List.length_append] at h2; omega
    rw [List.length_eq_zero.mp hc]; simp
  · rw [if_neg h2, e1, e2, t1, t2]

theorem qInsert_mid (a c ba : QByteArray) (hba : 0 < ba.length) :
    qInsert (a ++ c) (a.length : Int) ba = a ++ ba ++ c := by
  unfold qInsert
  have h1 : ¬ ((a.length : Int) < 0 ∨ ba.length = 0) := by omega
  have h2 : ¬ (((a ++ c).length : Int) < (a.length : Int)) := by
    simp only [List.length_append]; omega
  rw [if_neg h1, if_neg h2, Int.toNat_natCast, List.take_left' rfl, List.drop_left' rfl]

theorem qReplace_mid (a b c after : QByteArray) (hb : 0 < b.length)
    (ha : 0 < after.length) (hne : b.length ≠ after.length) :
    qReplace (a ++ b ++ c) (a.length : Int) (b.length : Int) after = a ++ after ++ c := by
  unfold qReplace
  have h1 : ¬ ((b.length : Int) = (after.length : Int) ∧
      (a.length : Int) + (b.length : Int) ≤ ((a ++ b ++ c).length : Int)) := by omega
  rw [if_neg h1, qRemove_mid a b c hb, qInsert_mid a c after ha]

theorem scanLoop_exit (fuel : Nat) (s : ScanState) (h : scanCond s = false) :
    scanLoop fuel s = some s.data := by
  cases fuel <;> simp [scanLoop, h]

theorem scanLoop_iter (fuel : Nat) (s s' : ScanState) (h : scanCond s = true)
    (hs : scanStep s = some s') : scanLoop (fuel + 1) s = scanLoop fuel s' := by
  simp [scanLoop, h, hs]

theorem scanCond_at_end (d : QByteArray) (i : Int) (sp tb ls : Int) (b : Bool)
    (h : i = (d.length : Int)) : scanCond ⟨d, i, sp, tb, ls, b⟩ = false := by
  simp [scanCond, h]

theorem scanCond_inside (done rest : QByteArray) (c : Byte) (sp tb ls : Int) (b : Bool) :
    scanCond ⟨done ++ c :: rest, (done.length : Int), sp, tb, ls, b⟩ = true := by
  simp only [scanCond, List.length_append, List.length_cons, decide_eq_true_eq]
  omega

theorem scanStep_newline (done rest : QByteArray) (sp tb ls : Int) (b : Bool) :
    scanStep ⟨done ++ LF :: rest, (done.length : Int), sp, tb, ls, b⟩
      = some ⟨done ++ LF :: rest, (done.length : Int) + 1, 0, 0, (done.length : Int) + 1, true⟩ := by
  simp [scanStep, byteAt_append_cons]

theorem scanStep_copy (done rest : QByteArray) (c : Byte) (sp tb ls : Int) (hc : c ≠ LF) :
    scanStep ⟨done ++ c :: rest, (done.length : Int), sp, tb, ls, false⟩
      = some ⟨done ++ c :: rest, (done.length : Int) + 1, sp, tb, ls, false⟩ := by
  simp [scanStep, byteAt_append_cons, hc]

theorem scanStep_space (done rest : QByteArray) (k : Nat) (ls : Int) :
    scanStep ⟨done ++ SPACE :: rest, (done.length : Int), ((k % 4 : Nat) : Int),
        ((k / 4 : Nat) : Int), ls, true⟩
      = some ⟨done ++ SPACE :: rest, (done.length : Int) + 1, (((k + 1) % 4 : Nat) : Int),
        (((k + 1) / 4 : Nat) : Int), ls, true⟩ := by
  have hne : SPACE ≠ LF := by decide
  simp only [scanStep, byteAt_append_cons, hne, if_false, if_true]
  by_cases h : ((k % 4 : Nat) : Int) + 1 = 4
  · rw [if_pos h]
    have h1 : (k + 1) % 4 = 0 := by omega
    have h2 : (k + 1) / 4 = k / 4 + 1 := by omega
    rw [h1, h2]; simp
  · rw [if_neg h]
    have h1 : (k + 1) % 4 = k % 4 + 1 := by omega
    have h2 : (k + 1) / 4 = k / 4 := by omega
    rw [h1, h2]; simp

theorem scanStep_first_no_tabs (done rest : QByteArray) (c : Byte) (sp ls : Int)
    (hc : c ≠ LF) (hs : c ≠ SPACE) :
    scanStep ⟨done ++ c :: rest, (done.length : Int), sp, 0, ls, true⟩
      = some ⟨done ++ c :: rest, (done.length : Int) + 1, sp, 0, ls, false⟩ := by
  simp [scanStep, byteAt_append_cons, hc, hs]

theorem scanStep_first_tabs (done rest : QByteArray) (c : Byte) (k : Nat) (sp : Int)
    (hc : c ≠ LF) (hs : c ≠ SPACE) (ht : 0 < k / 4) :
    scanStep ⟨done ++ List.replicate k SPACE ++ c :: rest, ((done.length + k : Nat) : Int), sp,
        ((k / 4 : Nat) : Int), (done.length : Int), true⟩
      = some ⟨done ++ List.replicate (k / 4) TAB ++ List.replicate (k % 4) SPACE ++ c :: rest,
          ((done.length + k / 4 + k % 4 : Nat) : Int) + 1, sp,
          ((k / 4 : Nat) : Int), (done.length : Int), false⟩ := by
  have hat : byteAt (done ++ List.replicate k SPACE ++ c :: rest)
      ((done.length + k : Nat) : Int) = some c := by
    have := byteAt_append_cons (done ++ List.replicate k SPACE) rest c
    simpa using this
  have hk : List.replicate k SPACE
      = List.replicate (k / 4 * 4) SPACE ++ List.replicate (k % 4) SPACE := by
    rw [← List.replicate_add]; congr 1; omega
  have hrep : qReplace (done ++ List.replicate k SPACE ++ c :: rest) (done.length : Int)
      (((k / 4 : Nat) : Int) * 4) (List.replicate (k / 4) TAB)
      = done ++ List.replicate (k / 4) TAB ++ List.replicate (k % 4) SPACE ++ c :: rest := by
    have h := qReplace_mid done (List.replicate (k / 4 * 4) SPACE)
      (List.replicate (k % 4) SPACE ++ c :: rest) (List.replicate (k / 4) TAB)
      (by simp; omega) (by simp; omega) (by simp; omega)
    rw [hk]
    simp only [List.length_replicate, Nat.cast_mul, Nat.cast_ofNat, List.append_assoc] at h ⊢
    exact h
  have hpos : (0 : Int) < ((k / 4 : Nat) : Int) := by omega
  have hi : ((done.length + k : Nat) : Int) - ((k / 4 : Nat) : Int) * 3 + 1
      = ((done.length + k / 4 + k % 4 : Nat) : Int) + 1 := by omega
  simp only [scanStep, hat, hc, hs, if_false, if_true, hpos, hrep, Int.toNat_natCast, hi]

theorem scanLoop_sim (rest : QByteArray) :
    (∀ (done : QByteArray) (sp tb ls : Int) (fuel : Nat), rest.length ≤ fuel →
      scanLoop fuel ⟨done ++ rest, (done.length : Int), sp, tb, ls, false⟩
        = some (done ++ tabify none rest)) ∧
    (∀ (done : QByteArray) (k fuel : Nat), rest.length ≤ fuel →
      scanLoop fuel ⟨done ++ List.replicate k SPACE ++ rest, ((done.length + k : Nat) : Int),
          ((k % 4 : Nat) : Int), ((k / 4 : Nat) : Int), (done.length : Int), true⟩
        = some (done ++ tabify (some k) rest)) := by
  induction rest with
  | nil =>
    constructor
    · intro done sp tb ls fuel _
      rw [scanLoop_exit _ _ (scanCond_at_end _ _ _ _ _ _ (by simp))]
      simp [tabify]
    · intro done k fuel _
      rw [scanLoop_exit _ _ (scanCond_at_end _ _ _ _ _ _ (by simp))]
      simp [tabify]
  | cons c r ih =>
    obtain ⟨ihCopy, ihLead⟩ := ih
    -- after a newline the scan is at the start of a line
    have afterLF : ∀ (pre : QByteArray) (fuel : Nat), r.length ≤ fuel →
        scanLoop fuel ⟨pre ++ LF :: r, (pre.length : Int) + 1, 0, 0,
          (pre.length : Int) + 1, true⟩ = some (pre ++ LF :: tabify (some 0) r) := by
      intro pre fuel hf
      have h := ihLead (pre ++ [LF]) 0 fuel hf
      simpa using h
    constructor
    · intro done sp tb ls fuel hf
      obtain ⟨f, rfl⟩ : ∃ f, fuel = f + 1 := ⟨fuel - 1, by simp at hf; omega⟩
      have hf' : r.length ≤ f := by simp at hf; omega
      by_cases hc : c = LF
      · subst hc
        rw [scanLoop_iter _ _ _ (scanCond_inside _ _ _ _ _ _ _) (scanStep_newline _ _ _ _ _ _),
          afterLF done f hf']
        simp [tabify]
      · rw [scanLoop_iter _ _ _ (scanCond_inside _ _ _ _ _ _ _) (scanStep_copy _ _ _ _ _ _ hc)]
        have h := ihCopy (done ++ [c]) sp tb ls f hf'
        simp only [List.length_append, List.length_singleton, List.append_assoc,
          List.singleton_append, Nat.cast_add, Nat.cast_one] at h
        rw [h]
        simp [tabify, hc]
    · intro done k fuel hf
      obtain ⟨f, rfl⟩ : ∃ f, fuel = f + 1 := ⟨fuel - 1, by simp at hf; omega⟩
      have hf' : r.length ≤ f := by simp at hf; omega
      have hlen : ((done.length + k : Nat) : Int)
          = ((done ++ List.replicate k SPACE).length : Int) := by simp
      by_cases hc : c = LF
      · subst hc
        rw [hlen, List.append_assoc done, ← List.append_assoc done,
          scanLoop_iter _ _ _ (scanCond_inside _ _ _ _ _ _ _) (scanStep_newline _ _ _ _ _ _),
          afterLF _ f hf']
        simp [tabify]
      · by_cases hs : c = SPACE
        · subst hs
          rw [hlen,
            scanLoop_iter _ _ _ (scanCond_inside _ _ _ _ _ _ _) (scanStep_space _ _ _ _)]
          have h := ihLead done (k + 1) f hf'
          have e : done ++ List.replicate (k + 1) SPACE ++ r
              = done ++ List.replicate k SPACE ++ SPACE :: r := by
            rw [List.replicate_succ']; simp
          rw [e] at h
          have e2 : (((done ++ List.replicate k SPACE).length : Nat) : Int) + 1
              = ((done.length + (k + 1) : Nat) : Int) := by simp; omega
          rw [e2, h]
          simp [tabify, hc]
        · have hspec : tabify (some k) (c :: r)
              = List.replicate (k / 4) TAB ++ List.replicate (k % 4) SPACE ++ c :: tabify none r := by
            simp [tabify, hc, hs]
          by_cases ht : 0 < k / 4
          · have hcond : scanCond ⟨done ++ List.replicate k SPACE ++ c :: r,
                ((done.length + k : Nat) : Int), ((k % 4 : Nat) : Int), ((k / 4 : Nat) : Int),
                (done.length : Int), true⟩ = true := by
              rw [hlen]; exact scanCond_inside _ _ _ _ _ _ _
            rw [scanLoop_iter _ _ _ hcond (scanStep_first_tabs done r c k _ hc hs ht)]
            have h := ihCopy (done ++ List.replicate (k / 4) TAB ++ List.replicate (k % 4) SPACE
              ++ [c]) ((k % 4 : Nat) : Int) ((k / 4 : Nat) : Int) (done.length : Int) f hf'
            simp only [List.length_append, List.length_singleton, List.append_assoc,
              List.singleton_append, List.length_replicate, Nat.cast_add, Nat.cast_one] at h
            simp only [List.append_assoc, Nat.cast_add, add_assoc] at h ⊢
            rw [h, hspec]
            simp
          · have hk0 : k / 4 = 0 := by omega
            have hk1 : k % 4 = k := by omega
            rw [hk0, hlen]
            simp only [Nat.cast_zero]
            rw [scanLoop_iter _ _ _ (scanCond_inside _ _ _ _ _ _ _)
              (scanStep_first_no_tabs _ _ _ _ _ hc hs)]
            have h := ihCopy (done ++ List.replicate k SPACE ++ [c]) ((k % 4 : Nat) : Int) 0
              (done.length : Int) f hf'
            simp only [List.length_append, List.length_singleton, List.append_assoc,
              List.singleton_append, List.length_replicate, Nat.cast_add, Nat.cast_one] at h
            simp only [List.append_assoc, List.length_append, List.length_replicate,
              Nat.cast_add, add_assoc] at h ⊢
            rw [h, hspec, hk0, hk1]
            simp

/-- The scan finishes within one iteration per input byte and its result is
the single pass description. -/
theorem transcode_eq_tabify (data : QByteArray) :
    transcode data = some (tabify (some 0) data) := by
  have h := (scanLoop_sim data).2 [] 0 data.length (le_refl _)
  simpa [transcode, scanInit] using h

theorem splitOnSep_ne_nil (sep : Nat) (x : List Nat) : splitOnSep sep x ≠ [] := by
  cases x with
  | nil => simp [splitOnSep]
  | cons c r =>
    unfold splitOnSep
    split
    · simp
    · split <;> simp

theorem splitOnSep_exists (sep : Nat) (x : List Nat) :
    ∃ l ls, splitOnSep sep x = l :: ls := by
  cases h : splitOnSep sep x with
  | nil => exact absurd h (splitOnSep_ne_nil sep x)
  | cons l ls => exact ⟨l, ls, rfl⟩

theorem splitOnSep_sep (sep : Nat) (r : List Nat) :
    splitOnSep sep (sep :: r) = [] :: splitOnSep sep r := by
  simp [splitOnSep]

theorem splitOnSep_other (sep c : Nat) (r l : List Nat) (ls : List (List Nat)) (hc : c ≠ sep)
    (h : splitOnSep sep r = l :: ls) : splitOnSep sep (c :: r) = (c :: l) :: ls := by
  simp [splitOnSep, hc, h]

theorem joinSep_append_head (sep : Nat) (a l : List Nat) (ls : List (List Nat)) :
    joinSep sep ((a ++ l) :: ls) = a ++ joinSep sep (l :: ls) := by
  cases ls <;> simp [joinSep]

theorem joinSep_cons_head (sep c : Nat) (l : List Nat) (ls : List (List Nat)) :
    joinSep sep ((c :: l) :: ls) = c :: joinSep sep (l :: ls) :=
  joinSep_append_head sep [c] l ls

theorem joinSep_two (sep : Nat) (l m : List Nat) (ls : List (List Nat)) :
    joinSep sep (l :: m :: ls) = l ++ sep :: joinSep sep (m :: ls) := rfl

theorem transcodeLine_spaces (k : Nat) : transcodeLine (List.replicate k SPACE) =
    List.replicate k SPACE := by
  have h : List.dropWhile (fun x => decide (x = SPACE)) (List.replicate k SPACE) = [] := by
    rw [List.dropWhile_eq_nil_iff]; intro x hx; simp [List.eq_of_mem_replicate hx]
  simp [transcodeLine, h]

theorem transcodeLine_first (k : Nat) (c : Byte) (l : List Byte) (hc : c ≠ SPACE) :
    transcodeLine (List.replicate k SPACE ++ c :: l)
      = List.replicate (k / 4) TAB ++ List.replicate (k % 4) SPACE ++ c :: l := by
  have hall : ∀ x ∈ List.replicate k SPACE, (fun x => decide (x = SPACE)) x = true := by
    intro x hx; simp [List.eq_of_mem_replicate hx]
  have h1 : List.takeWhile (fun x => decide (x = SPACE)) (List.replicate k SPACE ++ c :: l)
      = List.replicate k SPACE := by
    rw [List.takeWhile_append_of_pos hall]; simp [List.takeWhile, hc]
  have h2 : List.dropWhile (fun x => decide (x = SPACE)) (List.replicate k SPACE ++ c :: l)
      = c :: l := by
    rw [List.dropWhile_append_of_pos hall]; simp [List.dropWhile, hc]
  simp [transcodeLine, h1, h2]

theorem tabify_lines (x : List Byte) :
    ∀ l ls, splitOnSep LF x = l :: ls →
      tabify none x = joinSep LF (l :: ls.map transcodeLine) ∧
      ∀ k, tabify (some k) x
        = joinSep LF (transcodeLine (List.replicate k SPACE ++ l) :: ls.map transcodeLine) := by
  induction x with
  | nil =>
    intro l ls h
    simp only [splitOnSep, List.cons.injEq] at h
    obtain ⟨rfl, rfl⟩ := h
    refine ⟨by simp [tabify, joinSep], fun k => ?_⟩
    simp [tabify, joinSep, transcodeLine_spaces]
  | cons c r ih =>
    intro l ls h
    obtain ⟨l', ls', hr⟩ := splitOnSep_exists LF r
    obtain ⟨ihN, ihS⟩ := ih l' ls' hr
    by_cases hc : c = LF
    · subst hc
      rw [splitOnSep_sep, hr] at h
      simp only [List.cons.injEq] at h
      obtain ⟨rfl, rfl⟩ := h
      have h0 := ihS 0
      simp only [List.replicate_zero, List.nil_append] at h0
      refine ⟨?_, fun k => ?_⟩
      · simp [tabify, h0, joinSep_two]
      · simp [tabify, h0, joinSep_two, transcodeLine_spaces]
    · rw [splitOnSep_other LF c r l' ls' hc hr] at h
      simp only [List.cons.injEq] at h
      obtain ⟨rfl, rfl⟩ := h
      refine ⟨?_, fun k => ?_⟩
      · simp [tabify, hc, ihN, joinSep_cons_head]
      · by_cases hs : c = SPACE
        · subst hs
          have e : List.replicate k SPACE ++ SPACE :: l'
              = List.replicate (k + 1) SPACE ++ l' := by
            rw [List.replicate_succ']; simp
          simp [tabify, hc, ihS (k + 1), e]
        · rw [transcodeLine_first k c l' hs]
          simp only [tabify, hc, hs, if_false, ihN]
          rw [show List.replicate (k / 4) TAB ++ List.replicate (k % 4) SPACE ++ c :: l'
            = (List.replicate (k / 4) TAB ++ List.replicate (k % 4) SPACE ++ [c]) ++ l' by simp,
            joinSep_append_head]
          simp

theorem tabify_eq_transcodeLines (x : List Byte) : tabify (some 0) x = transcodeLines x := by
  obtain ⟨l, ls, h⟩ := splitOnSep_exists LF x
  have := (tabify_lines x l ls h).2 0
  simpa [transcodeLines, h] using this

/-- The scan finishes and its result is the line-oriented transform. -/
theorem transcode_eq_transcodeLines (data : QByteArray) :
    transcode data = some (transcodeLines data) := by
  rw [transcode_eq_tabify, tabify_eq_transcodeLines]

theorem splitOnSep_no_sep (sep : Nat) (x : List Nat) :
    ∀ l ∈ splitOnSep sep x, sep ∉ l := by
  induction x with
  | nil => intro l hl; simp [splitOnSep] at hl; simp [hl]
  | cons c r ih =>
    obtain ⟨l', ls', hr⟩ := splitOnSep_exists sep r
    rw [hr] at ih
    by_cases hc : c = sep
    · subst hc
      rw [splitOnSep_sep, hr]
      intro l hl
      rcases List.mem_cons.mp hl with h | h
      · simp [h]
      · exact ih l h
    · rw [splitOnSep_other sep c r l' ls' hc hr]
      intro l hl
      rcases List.mem_cons.mp hl with h | h
      · subst h
        have := ih l' (List.mem_cons_self _ _)
        simp [this, Ne.symm hc]
      · exact ih l (List.mem_cons_of_mem _ h)

theorem splitOnSep_line (sep : Nat) (l : List Nat) (h : sep ∉ l) :
    splitOnSep sep l = [l] := by
  induction l with
  | nil => rfl
  | cons c r ih =>
    have hc : c ≠ sep := fun e => h (by simp [e])
    have hr : sep ∉ r := fun e => h (List.mem_cons_of_mem _ e)
    exact splitOnSep_other sep c r r [] hc (ih hr)

theorem splitOnSep_append_sep (sep : Nat) (l rest : List Nat) (h : sep ∉ l) :
    splitOnSep sep (l ++ sep :: rest) = l :: splitOnSep sep rest := by
  induction l with
  | nil => simp [splitOnSep]
  | cons c r ih =>
    have hc : c ≠ sep := fun e => h (by simp [e])
    have hr : sep ∉ r := fun e => h (List.mem_cons_of_mem _ e)
    exact splitOnSep_other sep c _ r _ hc (ih hr)

theorem splitOnSep_joinSep (sep : Nat) (ls : List (List Nat)) (hne : ls ≠ [])
    (h : ∀ l ∈ ls, sep ∉ l) : splitOnSep sep (joinSep sep ls) = ls := by
  induction ls with
  | nil => exact absurd rfl hne
  | cons l rest ih =>
    cases rest with
    | nil => exact splitOnSep_line sep l (h l (List.mem_cons_self _ _))
    | cons m ms =>
      rw [joinSep_two, splitOnSep_append_sep sep l _ (h l (List.mem_cons_self _ _)),
        ih (by simp) (fun x hx => h x (List.mem_cons_of_mem _ hx))]

theorem joinSep_splitOnSep (sep : Nat) (x : List Nat) :
    joinSep sep (splitOnSep sep x) = x := by
  induction x with
  | nil => rfl
  | cons c r ih =>
    obtain ⟨l', ls', hr⟩ := splitOnSep_exists sep r
    rw [hr] at ih
    by_cases hc : c = sep
    · subst hc
      rw [splitOnSep_sep, hr, joinSep_two, ih]; rfl
    · rw [splitOnSep_other sep c r l' ls' hc hr, joinSep_cons_head, ih]

/-- A line splits into its leading spaces and the rest. -/
theorem leading_spaces_split (l : List Byte) :
    l = List.replicate (l.takeWhile (· = SPACE)).length SPACE ++ l.dropWhile (· = SPACE) := by
  have h : l.takeWhile (· = SPACE)
      = List.replicate (l.takeWhile (· = SPACE)).length SPACE := by
    rw [List.eq_replicate_iff]
    refine ⟨rfl, fun b hb => ?_⟩
    simpa using List.mem_takeWhile_imp hb
  conv_lhs => rw [← List.takeWhile_append_dropWhile (· = SPACE) l]
  rw [← h]

theorem transcodeLine_no_LF (l : List Byte) (h : LF ∉ l) : LF ∉ transcodeLine l := by
  unfold transcodeLine
  simp only
  split
  · exact h
  · intro hm
    simp only [List.mem_append, List.mem_replicate] at hm
    rcases hm with (⟨_, h1⟩ | ⟨_, h1⟩) | h1
    · exact absurd h1 (by decide)
    · exact absurd h1 (by decide)
    · exact h ((List.dropWhile_sublist _).subset h1)

theorem splitOnSep_transcodeLines (data : QByteArray) :
    splitOnSep LF (transcodeLines data) = (splitOnSep LF data).map transcodeLine := by
  unfold transcodeLines
  apply splitOnSep_joinSep
  · simpa using splitOnSep_ne_nil LF data
  · intro l hl
    obtain ⟨l0, hl0, rfl⟩ := List.mem_map.mp hl
    exact transcodeLine_no_LF l0 (splitOnSep_no_sep LF data l0 hl0)

theorem count_LF_tabify (x : List Byte) :
    ∀ m, (tabify m x).count LF = x.count LF := by
  have hs : ∀ k, (List.replicate k SPACE).count LF = 0 := by
    intro k; rw [List.count_replicate]; simp [SPACE, LF]
  have ht : ∀ k, (List.replicate k TAB).count LF = 0 := by
    intro k; rw [List.count_replicate]; simp [TAB, LF]
  induction x with
  | nil => intro m; cases m <;> simp [tabify, hs]
  | cons c r ih =>
    intro m
    cases m with
    | none =>
      by_cases hc : c = LF
      · subst hc; simp [tabify, ih]
      · simp [tabify, hc, ih, List.count_cons]
    | some k =>
      by_cases hc : c = LF
      · subst hc; simp [tabify, ih, hs, List.count_cons]
      · by_cases hsp : c = SPACE
        · subst hsp; simp [tabify, hc, ih, List.count_cons]
        · simp [tabify, hc, hsp, ih, hs, ht, List.count_cons]

theorem transcodeLine_suffix (l : List Byte) :
    ∃ pre, transcodeLine l = pre ++ l.dropWhile (· = SPACE) ∧
      (∀ b ∈ pre, b = TAB ∨ b = SPACE) ∧
      pre.length ≤ (l.takeWhile (· = SPACE)).length := by
  by_cases h : l.dropWhile (· = SPACE) = []
  · refine ⟨l, ?_, ?_, ?_⟩
    · simp [transcodeLine, h]
    · intro b hb
      have hl := leading_spaces_split l
      rw [h, List.append_nil] at hl
      rw [hl] at hb
      exact Or.inr (List.eq_of_mem_replicate hb)
    · have hl := leading_spaces_split l
      rw [h, List.append_nil] at hl
      conv_lhs => rw [hl]
      simp
  · refine ⟨List.replicate ((l.takeWhile (· = SPACE)).length / 4) TAB
        ++ List.replicate ((l.takeWhile (· = SPACE)).length % 4) SPACE, ?_, ?_, ?_⟩
    · simp [transcodeLine, h]
    · intro b hb
      rcases List.mem_append.mp hb with hb | hb
      · exact Or.inl (List.eq_of_mem_replicate hb)
      · exact Or.inr (List.eq_of_mem_replicate hb)
    · simp only [List.length_append, List.length_replicate]
      omega

/-- C2. Per-line result of the indentation scan: when line `j` of the input
(the lines being the pieces between newline bytes) is `k` spaces followed by a
byte `c` that is not a space (nor, being on a line, a newline) and a rest,
the scan finishes and line `j` of its output is `k / 4` tabs, then `k % 4`
spaces, then `c` and the same rest. -/
theorem transcode_line_result (data : QByteArray) (j k : Nat) (c : Byte) (rest : List Byte)
    (hline : (splitOnSep LF data)[j]? = some (List.replicate k SPACE ++ c :: rest))
    (hc : c ≠ SPACE) :
    ∃ out, transcode data = some out ∧
      (splitOnSep LF out)[j]?
        = some (List.replicate (k / 4) TAB ++ List.replicate (k % 4) SPACE ++ c :: rest) := by
  refine ⟨transcodeLines data, transcode_eq_transcodeLines data, ?_⟩
  rw [splitOnSep_transcodeLines, List.getElem?_map, hline, Option.map_some',
    transcodeLine_first k c rest hc]

/-- C2, at the two lines the specification names: four spaces before
`"x": 1,` become one tab, six spaces before `"y": 2,` become one tab and two
spaces. -/
theorem transcode_line_result_witness :
    (∃ out, transcode (ascii "    \"x\": 1,\n      \"y\": 2,") = some out ∧
      (splitOnSep LF out)[0]? = some (ascii "\t\"x\": 1,")) ∧
    (∃ out, transcode (ascii "    \"x\": 1,\n      \"y\": 2,") = some out ∧
      (splitOnSep LF out)[1]? = some (ascii "\t  \"y\": 2,")) :=
  ⟨transcode_line_result (ascii "    \"x\": 1,\n      \"y\": 2,") 0 4 34 (ascii "x\": 1,")
      (by decide) (by decide),
   transcode_line_result (ascii "    \"x\": 1,\n      \"y\": 2,") 1 6 34 (ascii "y\": 2,")
      (by decide) (by decide)⟩

/-- C3. The indentation scan alters nothing outside leading-space runs: it
finishes, its output has as many newline bytes and as many lines as the input,
and every output line is a run of tabs and spaces, no longer than the leading
spaces of the input line, followed by the input line from its first non-space
byte on, unchanged. -/
theorem transcode_preserves_line_content (data : QByteArray) :
    ∃ out, transcode data = some out ∧
      out.count LF = data.count LF ∧
      (splitOnSep LF out).length = (splitOnSep LF data).length ∧
      ∀ (j : Nat) (line : List Byte), (splitOnSep LF data)[j]? = some line →
        ∃ pre, (splitOnSep LF out)[j]? = some (pre ++ line.dropWhile (· = SPACE)) ∧
          (∀ b ∈ pre, b = TAB ∨ b = SPACE) ∧
          pre.length ≤ (line.takeWhile (· = SPACE)).length := by
  refine ⟨tabify (some 0) data, transcode_eq_tabify data, count_LF_tabify data _, ?_, ?_⟩
  · rw [tabify_eq_transcodeLines, splitOnSep_transcodeLines, List.length_map]
  · intro j line hline
    obtain ⟨pre, h1, h2, h3⟩ := transcodeLine_suffix line
    refine ⟨pre, ?_, h2, h3⟩
    rw [tabify_eq_transcodeLines, splitOnSep_transcodeLines, List.getElem?_map, hline,
      Option.map_some', h1]

/-! ## The loader -/

theorem readLineBytes_cases (x : QByteArray) :
    (∃ l rest, x = l ++ LF :: rest ∧ LF ∉ l ∧ readLineBytes x = (l, rest)) ∨
    (LF ∉ x ∧ readLineBytes x = (x, [])) := by
  induction x with
  | nil => right; simp [readLineBytes]
  | cons c r ih =>
    by_cases hc : c = LF
    · subst hc
      left
      exact ⟨[], r, by simp, by simp, by simp [readLineBytes]⟩
    · rcases ih with ⟨l, rest, h1, h2, h3⟩ | ⟨h1, h2⟩
      · left
        refine ⟨c :: l, rest, by simp [h1], ?_, by simp [readLineBytes, hc, h3]⟩
        simp [h2, Ne.symm hc]
      · right
        refine ⟨?_, by simp [readLineBytes, hc, h2]⟩
        simp [h1, Ne.symm hc]

theorem streamLines_nil : streamLines [] = [] := by
  simp [streamLines, splitOnSep]

theorem streamLines_single (x : QByteArray) (h : LF ∉ x) (hx : x ≠ []) :
    streamLines x = [x] := by
  simp [streamLines, splitOnSep_line LF x h, hx]

theorem streamLines_append_LF (l rest : QByteArray) (h : LF ∉ l) :
    streamLines (l ++ LF :: rest) = l :: streamLines rest := by
  obtain ⟨m, ms, hs⟩ := splitOnSep_exists LF rest
  unfold streamLines
  rw [splitOnSep_append_sep LF l rest h, hs, List.getLast?_cons_cons, List.dropLast_cons₂]
  split <;> rfl

theorem headerLoop_nil (codec : TextCodec) (fuel : Nat) (acc : List QString) :
    headerLoop codec fuel acc [] = some (acc, []) := by
  cases fuel <;> simp [headerLoop]

theorem headerLoop_spec (codec : TextCodec) (fuel : Nat) :
    ∀ (acc : List QString) (unread : QByteArray), unread.length ≤ fuel →
      headerLoop codec fuel acc unread
        = some (acc ++ (headerLines codec unread).map (fun line => mid line 3),
            joinSep LF ((splitOnSep LF unread).drop ((headerLines codec unread).length + 1))) := by
  induction fuel with
  | zero =>
    intro acc unread h
    have hu : unread = [] := List.length_eq_zero.mp (Nat.le_zero.mp h)
    subst hu
    simp [headerLoop, headerLines, streamLines_nil, splitOnSep, joinSep]
  | succ f ih =>
    intro acc unread h
    by_cases hu : unread = []
    · subst hu
      simp [headerLoop, headerLines, streamLines_nil, splitOnSep, joinSep]
    · have hemp : unread.isEmpty = false := by
        cases unread with
        | nil => exact absurd rfl hu
        | cons _ _ => rfl
      rcases readLineBytes_cases unread with ⟨l, rest, h1, h2, h3⟩ | ⟨h1, h2⟩
      · have hlen : rest.length ≤ f := by
          rw [h1] at h; simp at h; omega
        have hsl : streamLines unread = l :: streamLines rest := by
          rw [h1]; exact streamLines_append_LF l rest h2
        have hsp : splitOnSep LF unread = l :: splitOnSep LF rest := by
          rw [h1]; exact splitOnSep_append_sep LF l rest h2
        by_cases hs : startsWithSlashes (lineText codec l) = true
        · have hh : headerLines codec unread
              = lineText codec l :: headerLines codec rest := by
            simp [headerLines, hsl, List.takeWhile_cons, hs]
          simp only [headerLoop, hemp, h3, hs, if_true, Bool.false_eq_true, if_false]
          rw [ih _ rest hlen, hh, hsp]
          simp
        · have hh : headerLines codec unread = [] := by
            simp [headerLines, hsl, List.takeWhile_cons, hs]
          simp only [headerLoop, hemp, h3, hs, if_false, Bool.false_eq_true]
          rw [hh, hsp]
          simp [joinSep_splitOnSep]
      · have hsl : streamLines unread = [unread] := streamLines_single unread h1 hu
        have hsp : splitOnSep LF unread = [unread] := splitOnSep_line LF unread h1
        by_cases hs : startsWithSlashes (lineText codec unread) = true
        · have hh : headerLines codec unread = [lineText codec unread] := by
            simp [headerLines, hsl, List.takeWhile_cons, hs]
          simp only [headerLoop, hemp, h2, hs, if_true, Bool.false_eq_true, if_false]
          rw [headerLoop_nil, hh, hsp]
          simp [joinSep]
        · have hh : headerLines codec unread = [] := by
            simp [headerLines, hsl, List.takeWhile_cons, hs]
          simp only [headerLoop, hemp, h2, hs, if_false, Bool.false_eq_true]
          rw [hh, hsp]
          simp [joinSep]

theorem splitHeader_header (codec : TextCodec) (bytes : QByteArray)
    (h : bytes.take 2 = [SLASH, SLASH]) :
    splitHeader codec bytes
      = some (joinSep LF ((headerLines codec bytes).map (fun line => mid line 3)),
          joinSep LF ((splitOnSep LF bytes).drop ((headerLines codec bytes).length + 1))) := by
  simp [splitHeader, h, headerLoop_spec codec bytes.length [] bytes (le_refl _)]

theorem splitHeader_no_header (codec : TextCodec) (bytes : QByteArray)
    (h : bytes.take 2 ≠ [SLASH, SLASH]) :
    splitHeader codec bytes = some ([], bytes) := by
  simp [splitHeader, h]

theorem stripCR_eq_withoutFinalCR (line : QString) : stripCR line = withoutFinalCR line := by
  induction line with
  | nil => rfl
  | cons c r ih =>
    cases r with
    | nil =>
      by_cases hc : c = CR
      · simp [stripCR, withoutFinalCR, hc]
      · simp [stripCR, withoutFinalCR, hc]
    | cons d r2 =>
      have hstep : stripCR (c :: d :: r2) = c :: stripCR (d :: r2) := by
        unfold stripCR
        rw [List.getLast?_cons_cons, List.dropLast_cons₂]
        split <;> rfl
      rw [hstep, ih]
      rfl

theorem headerLines_eq_commentLines (codec : TextCodec) (bytes : QByteArray) :
    headerLines codec bytes = commentLines codec bytes := by
  unfold headerLines commentLines
  have h1 : (fun piece => lineText codec piece)
      = (fun piece => withoutFinalCR (codec.toUnicode piece)) := by
    funext piece
    exact stripCR_eq_withoutFinalCR _
  have h2 : startsWithSlashes = (fun line => decide (line.take 2 = [SLASH, SLASH])) := by
    funext line
    rfl
  rw [show lineText codec = (fun piece => lineText codec piece) from rfl, h1, h2]

/-- C4 fails as stated: in the file `// a\r`, `\r`, `{}` the first line between
newlines is `// a\r`, and without its first three characters it is `a\r`; the
loaded comment is `a`, because the text stream does not count the carriage
return in front of the line feed as part of the line. -/
theorem comment_lines_counterexample :
    (ascii "// a\r\n\r\n\x7b\x7d").take 2 = [SLASH, SLASH] ∧
    joinSep LF (((splitOnSep LF (ascii "// a\r\n\r\n\x7b\x7d")).takeWhile
        (fun line => decide (line.take 2 = [SLASH, SLASH]))).map (fun line => line.drop 3))
      = ascii "a\r" ∧
    ∃ loaded, loadBytes asciiCodec (fun _ => QJsonDocument.null) []
        (ascii "// a\r\n\r\n\x7b\x7d") = some loaded ∧
      loaded.m_comment = ascii "a" ∧ loaded.m_comment ≠ ascii "a\r" :=
  ⟨by decide, by decide, _, rfl, rfl, by decide⟩

/-- C4, amended. Comment extraction: for an input whose first two bytes are
both slashes the load succeeds and the comment is the text of the comment
lines, each without its first three characters, whatever the third one is,
joined with newlines. The comment lines are the maximal initial run of lines
that begin with two slashes, the first line that does not begin so ending the
run without being part of it; a line is the decoded text between two line
feeds without a carriage return at its end, which the text stream takes as
part of the line end. -/
theorem comment_extraction (codec : TextCodec) (fromJson : QByteArray → QJsonDocument)
    (path : QString) (bytes : QByteArray) (h : bytes.take 2 = [SLASH, SLASH]) :
    ∃ loaded, loadBytes codec fromJson path bytes = some loaded ∧
      loaded.m_comment
        = joinSep LF ((commentLines codec bytes).map (fun line => line.drop 3)) := by
  refine ⟨_, by simp only [loadBytes, splitHeader_header codec bytes h]; rfl, ?_⟩
  show joinSep LF ((headerLines codec bytes).map (fun line => mid line 3)) = _
  rw [headerLines_eq_commentLines]
  rfl

/-- C4, amended, at the header example of the specification, whose comment is
`hello\nworld`, and at a header with carriage returns: the line `// a\r` gives
`a`, the line `//\r` gives the empty string and the line `// b\rc` keeps the
carriage return inside it. -/
theorem comment_extraction_witness :
    ((ascii "// hello\n// world\n\n\x7b\"a\":1\x7d").take 2 = [SLASH, SLASH] ∧
      ∃ loaded, loadBytes asciiCodec (fun _ => QJsonDocument.null) []
          (ascii "// hello\n// world\n\n\x7b\"a\":1\x7d") = some loaded ∧
        loaded.m_comment = ascii "hello\nworld") ∧
    ((ascii "// a\r\n//\r\n// b\rc\n\r\n[]").take 2 = [SLASH, SLASH] ∧
      ∃ loaded, loadBytes asciiCodec (fun _ => QJsonDocument.null) []
          (ascii "// a\r\n//\r\n// b\rc\n\r\n[]") = some loaded ∧
        loaded.m_comment = ascii "a\n\nb\rc") :=
  ⟨⟨by decide, comment_extraction asciiCodec (fun _ => QJsonDocument.null) []
      (ascii "// hello\n// world\n\n\x7b\"a\":1\x7d") (by decide)⟩,
   ⟨by decide, comment_extraction asciiCodec (fun _ => QJsonDocument.null) []
      (ascii "// a\r\n//\r\n// b\rc\n\r\n[]") (by decide)⟩⟩

/-- C5 fails as stated: for the file `// c`, `{`, `}` the line `{` ends the
header, and the bytes handed to the JSON parser are `}` and a newline; they
are not the bytes from the start of the line `{` on. -/
theorem body_offset_counterexample :
    (ascii "// c\n\x7b\n\x7d\n").take 2 = [SLASH, SLASH] ∧
    headerLines asciiCodec (ascii "// c\n\x7b\n\x7d\n") = [ascii "// c"] ∧
    splitHeader asciiCodec (ascii "// c\n\x7b\n\x7d\n") = some (ascii "c", ascii "\x7d\n") ∧
    ascii "\x7d\n" ≠ joinSep LF ((splitOnSep LF (ascii "// c\n\x7b\n\x7d\n")).drop 1) ∧
    joinSep LF ((splitOnSep LF (ascii "// c\n\x7b\n\x7d\n")).drop 1) = ascii "\x7b\n\x7d\n" := by
  decide

/-- C5, amended. After a header the bytes handed to the JSON parser are the
bytes that follow the line which ended the header: with `n` header lines they
are the input lines after the first `n + 1` lines (joined by newlines again),
so the terminating line and its newline are consumed and are not part of the
JSON body. -/
theorem body_after_terminating_line (codec : TextCodec)
    (fromJson : QByteArray → QJsonDocument) (path : QString) (bytes : QByteArray)
    (h : bytes.take 2 = [SLASH, SLASH]) :
    ∃ comment,
      splitHeader codec bytes = some (comment,
        joinSep LF ((splitOnSep LF bytes).drop ((headerLines codec bytes).length + 1))) ∧
      loadBytes codec fromJson path bytes = some
        { document := adoptDocument (fromJson
            (joinSep LF ((splitOnSep LF bytes).drop ((headerLines codec bytes).length + 1)))),
          m_path := path, m_comment := comment, m_hasError := false } := by
  refine ⟨_, splitHeader_header codec bytes h, ?_⟩
  simp only [loadBytes, splitHeader_header codec bytes h]

/-- C5, amended, at the header example of the specification: after two header
lines and the blank line the parser is handed the JSON text. -/
theorem body_after_terminating_line_witness :
    (ascii "// hello\n// world\n\n\x7b\"a\":1\x7d").take 2 = [SLASH, SLASH] ∧
    ∃ comment,
      splitHeader asciiCodec (ascii "// hello\n// world\n\n\x7b\"a\":1\x7d")
        = some (comment, ascii "\x7b\"a\":1\x7d") ∧
      loadBytes asciiCodec (fun _ => QJsonDocument.null) []
          (ascii "// hello\n// world\n\n\x7b\"a\":1\x7d") = some
        { document := adoptDocument ((fun _ => QJsonDocument.null) (ascii "\x7b\"a\":1\x7d")),
          m_path := [], m_comment := comment, m_hasError := false } :=
  ⟨by decide, body_after_terminating_line asciiCodec (fun _ => QJsonDocument.null) []
    (ascii "// hello\n// world\n\n\x7b\"a\":1\x7d") (by decide)⟩

/-- C6. No header: for an input of fewer than two bytes, or whose first two
bytes are not both slashes, the comment is empty and the JSON parser is handed
the entire input. -/
theorem no_header_input (codec : TextCodec) (fromJson : QByteArray → QJsonDocument)
    (path : QString) (bytes : QByteArray)
    (h : bytes.length < 2 ∨ ¬ (bytes[0]? = some SLASH ∧ bytes[1]? = some SLASH)) :
    splitHeader codec bytes = some ([], bytes) ∧
    loadBytes codec fromJson path bytes = some
      { document := adoptDocument (fromJson bytes), m_path := path, m_comment := [],
        m_hasError := false } := by
  have hne : bytes.take 2 ≠ [SLASH, SLASH] := by
    intro ht
    match bytes, ht with
    | a :: b :: r, ht =>
      simp only [List.take_succ_cons, List.take_zero, List.cons.injEq, and_true] at ht
      rcases h with h | h
      · simp only [List.length_cons] at h; omega
      · exact h (by simp [ht.1, ht.2])
  refine ⟨splitHeader_no_header codec bytes hne, ?_⟩
  simp only [loadBytes, splitHeader_no_header codec bytes hne]

/-- C6 at the no-header example of the specification. -/
theorem no_header_input_witness :
    splitHeader asciiCodec (ascii "\x7b\"a\":1\x7d") = some ([], ascii "\x7b\"a\":1\x7d") ∧
    loadBytes asciiCodec (fun _ => QJsonDocument.null) [] (ascii "\x7b\"a\":1\x7d") = some
      { document := adoptDocument ((fun _ => QJsonDocument.null) (ascii "\x7b\"a\":1\x7d")),
        m_path := [], m_comment := [], m_hasError := false } :=
  no_header_input asciiCodec (fun _ => QJsonDocument.null) [] (ascii "\x7b\"a\":1\x7d")
    (Or.inr (by decide))

/-- C7 fails as stated for a file that cannot be opened: the constructor
returns before anything is parsed and the document stays the null document,
which is neither an Array nor an Object. -/
theorem load_unopened_counterexample :
    ∃ loaded, load asciiCodec (fun _ => QJsonDocument.object []) (ascii "missing.json") none
        = some loaded ∧
      loaded.document.isArray = false ∧ loaded.document.isObject = false :=
  ⟨_, rfl, rfl, rfl⟩

/-- C7, amended. Load never reports an error: it always yields a document
with `hasError = false`. For a file that was opened the document is the Array
when the body parses to an array, the Object when it parses to an object, and
the empty Object when the parser yields nothing. For a file that cannot be
opened the document is the null document (its `object()` is empty) and the
comment is empty. -/
theorem load_never_reports_error (codec : TextCodec) (fromJson : QByteArray → QJsonDocument)
    (path : QString) (file : Option QByteArray) :
    ∃ loaded, load codec fromJson path file = some loaded ∧
      loaded.m_hasError = false ∧
      match file with
      | none => loaded.document = QJsonDocument.null ∧ loaded.document.toObject = [] ∧
          loaded.m_comment = []
      | some bytes =>
        ∃ comment body, splitHeader codec bytes = some (comment, body) ∧
          loaded.m_comment = comment ∧
          (loaded.document.isArray = true ∨ loaded.document.isObject = true) ∧
          (∀ a, fromJson body = QJsonDocument.array a →
            loaded.document = QJsonDocument.array a) ∧
          (∀ o, fromJson body = QJsonDocument.object o →
            loaded.document = QJsonDocument.object o) ∧
          (fromJson body = QJsonDocument.null → loaded.document = QJsonDocument.object []) := by
  cases file with
  | none => exact ⟨_, rfl, rfl, rfl, rfl, rfl⟩
  | some bytes =>
    have hs : ∃ comment body, splitHeader codec bytes = some (comment, body) := by
      by_cases h : bytes.take 2 = [SLASH, SLASH]
      · exact ⟨_, _, splitHeader_header codec bytes h⟩
      · exact ⟨_, _, splitHeader_no_header codec bytes h⟩
    obtain ⟨comment, body, hsplit⟩ := hs
    refine ⟨{ document := adoptDocument (fromJson body), m_path := path,
              m_comment := comment, m_hasError := false }, ?_, rfl, ?_⟩
    · simp only [load, loadBytes, hsplit]
    · refine ⟨comment, body, hsplit, rfl, ?_, ?_, ?_, ?_⟩
      · cases hd : fromJson body <;>
          simp [adoptDocument, QJsonDocument.isArray, QJsonDocument.isObject]
      · intro a ha
        simp [ha, adoptDocument, QJsonDocument.isArray, QJsonDocument.toArray]
      · intro o ho
        simp [ho, adoptDocument, QJsonDocument.isArray, QJsonDocument.toObject]
      · intro hn
        simp [hn, adoptDocument, QJsonDocument.isArray, QJsonDocument.toObject]

/-- The malformed-body example of the specification, for a parser that
rejects the body: the comment is `note`, the value is the empty object and no
error is flagged. A file holding only a comment header gives the same. -/
theorem load_malformed_example :
    (∃ loaded, load asciiCodec fromJsonOfEmpty [] (some (ascii "// note\n\nnot valid json"))
        = some loaded ∧
      loaded.m_comment = ascii "note" ∧ loaded.document.toObject = [] ∧
      loaded.document.isObject = true ∧ loaded.m_hasError = false) ∧
    (∃ loaded, load asciiCodec fromJsonOfEmpty [] (some (ascii "// note\n")) = some loaded ∧
      loaded.m_comment = ascii "note" ∧ loaded.document.toObject = [] ∧
      loaded.document.isObject = true ∧ loaded.m_hasError = false) :=
  ⟨⟨_, rfl, rfl, rfl, rfl, rfl⟩, ⟨_, rfl, rfl, rfl, rfl, rfl⟩⟩

/-! ## The writer -/

theorem streamCommentLines_eq (ls : List QString) :
    streamCommentLines ls = (ls.map (fun line => ascii "// " ++ line ++ [LF])).flatten := by
  induction ls with
  | nil => rfl
  | cons l rest ih => simp [streamCommentLines, ih]

theorem isEmpty_eq_false_of_ne_nil {α : Type} (l : List α) (h : l ≠ []) : l.isEmpty = false := by
  cases l with
  | nil => exact absurd rfl h
  | cons _ _ => rfl

/-- Every call of `save` returns, in one of four ways. -/
theorem save_cases (codec : TextCodec) (toJson : QJsonDocument → QByteArray)
    (self : JsonSettings) (fs : FileSystem) (path : QString) (isAtomic : Bool) :
    (path = [] ∧ self.m_path = [] ∧
      save codec toJson self fs path isAtomic
        = some (false, { self with m_hasError := true }, fs)) ∨
    (¬ (path = [] ∧ self.m_path = []) ∧ fs.canOpen (effectivePath self path) isAtomic = false ∧
      save codec toJson self fs path isAtomic
        = some (false, { self with m_hasError := true },
            fs.record [FileOp.openWrite (effectivePath self path) isAtomic])) ∨
    (¬ (path = [] ∧ self.m_path = []) ∧ fs.canOpen (effectivePath self path) isAtomic = true ∧
      isAtomic = true ∧ fs.canCommit (effectivePath self path) = false ∧
      ∃ fs', save codec toJson self fs path isAtomic
        = some (false, { self with m_hasError := false }, fs') ∧ fs'.files = fs.files) ∨
    (¬ (path = [] ∧ self.m_path = []) ∧ fs.canOpen (effectivePath self path) isAtomic = true ∧
      (isAtomic = true → fs.canCommit (effectivePath self path) = true) ∧
      ∃ fs', save codec toJson self fs path isAtomic
        = some (true, { self with m_hasError := false }, fs') ∧
        fs'.files (effectivePath self path)
          = some (headerBytes codec self.m_comment ++ transcodeLines (toJson self.document))) := by
  by_cases hp : path = [] ∧ self.m_path = []
  · left
    refine ⟨hp.1, hp.2, ?_⟩
    simp [save, hp.1, hp.2]
  · right
    have hp' : ¬ (path.isEmpty = true ∧ self.m_path.isEmpty = true) := by
      simpa [List.isEmpty_iff] using hp
    by_cases ho : fs.canOpen (effectivePath self path) isAtomic = false
    · left
      refine ⟨hp, ho, ?_⟩
      simp only [save, hp', if_false, ho, if_true]
    · right
      have ho' : fs.canOpen (effectivePath self path) isAtomic = true := by
        simpa using ho
      cases isAtomic with
      | true =>
        by_cases hc : fs.canCommit (effectivePath self path) = true
        · right
          refine ⟨hp, ho', fun _ => hc, (fs.store (effectivePath self path)
            (headerBytes codec self.m_comment ++ transcodeLines (toJson self.document))).record
              [FileOp.openWrite (effectivePath self path) true,
               FileOp.write (effectivePath self path) (headerBytes codec self.m_comment),
               FileOp.write (effectivePath self path) (transcodeLines (toJson self.document)),
               FileOp.commit (effectivePath self path)], ?_, ?_⟩
          · simp only [save, hp', if_false, ho', transcode_eq_transcodeLines, hc, if_true,
              Bool.true_eq_false]
          · simp [FileSystem.record, FileSystem.store]
        · left
          have hc' : fs.canCommit (effectivePath self path) = false := by simpa using hc
          refine ⟨hp, ho', rfl, hc', fs.record
              [FileOp.openWrite (effectivePath self path) true,
               FileOp.write (effectivePath self path) (headerBytes codec self.m_comment),
               FileOp.write (effectivePath self path) (transcodeLines (toJson self.document)),
               FileOp.commit (effectivePath self path)], ?_, ?_⟩
          · simp only [save, hp', if_false, ho', transcode_eq_transcodeLines, hc', if_true,
              Bool.true_eq_false, Bool.false_eq_true]
          · simp [FileSystem.record]
      | false =>
        right
        refine ⟨hp, ho', fun h => absurd h (by decide), (fs.store (effectivePath self path)
            (headerBytes codec self.m_comment ++ transcodeLines (toJson self.document))).record
              [FileOp.openWrite (effectivePath self path) false,
               FileOp.write (effectivePath self path) (headerBytes codec self.m_comment),
               FileOp.write (effectivePath self path) (transcodeLines (toJson self.document)),
               FileOp.close (effectivePath self path)], ?_, ?_⟩
        · simp only [save, hp', if_false, ho', transcode_eq_transcodeLines,
            Bool.true_eq_false, Bool.false_eq_true]
        · simp [FileSystem.record, FileSystem.store]

/-- C8, the code at the failing input: an atomic save whose destination opens
and whose commit fails returns `false` and leaves `m_hasError` false. -/
theorem save_commit_failure_unflagged :
    ∃ self' fs', save asciiCodec toJsonOfEmpty (emptySettings (ascii "settings.json") [])
        (emptyFs false) [] true = some (false, self', fs') ∧
      self'.m_hasError = false :=
  ⟨_, _, rfl, rfl⟩

/-- C9. Save with no destination: when the stored path and the path argument
are both empty, `save` returns `false`, sets `m_hasError` and leaves the file
system as it was, its log of calls included. -/
theorem save_without_path (codec : TextCodec) (toJson : QJsonDocument → QByteArray)
    (self : JsonSettings) (fs : FileSystem) (isAtomic : Bool) (h : self.m_path = []) :
    save codec toJson self fs [] isAtomic
      = some (false, { self with m_hasError := true }, fs) := by
  simp [save, h]

/-- C9 for a settings object without a path, atomic and direct. -/
theorem save_without_path_witness :
    (emptySettings [] (ascii "note")).m_path = [] ∧
    save asciiCodec toJsonOfEmpty (emptySettings [] (ascii "note")) (emptyFs true) [] true
      = some (false, { emptySettings [] (ascii "note") with m_hasError := true }, emptyFs true) ∧
    save asciiCodec toJsonOfEmpty (emptySettings [] (ascii "note")) (emptyFs true) [] false
      = some (false, { emptySettings [] (ascii "note") with m_hasError := true }, emptyFs true) :=
  ⟨rfl, save_without_path asciiCodec toJsonOfEmpty _ (emptyFs true) true rfl,
   save_without_path asciiCodec toJsonOfEmpty _ (emptyFs true) false rfl⟩

/-- C10. What a successful save writes and where: when `save` returns `true`,
the indentation scan of the serialized JSON text finished with some bytes
`data`, and the file at the effective path (the argument, or the stored path
when the argument is empty) holds exactly the header followed by `data`. The
header is empty for an empty comment; otherwise it is the stream encoding of
the lines of the comment, each written as `"// "`, the line and a newline, and
of one further newline. -/
theorem save_writes (codec : TextCodec) (toJson : QJsonDocument → QByteArray)
    (self self' : JsonSettings) (fs fs' : FileSystem) (path : QString) (isAtomic : Bool)
    (h : save codec toJson self fs path isAtomic = some (true, self', fs')) :
    ∃ data, transcode (toJson self.document) = some data ∧
      fs'.files (if path = [] then self.m_path else path)
        = some ((if self.m_comment = [] then []
            else codec.fromUnicode
              (((splitOnSep LF self.m_comment).map
                  (fun line => ascii "// " ++ line ++ [LF])).flatten ++ [LF])) ++ data) := by
  have hH : headerBytes codec self.m_comment
      = (if self.m_comment = [] then []
          else codec.fromUnicode
            (((splitOnSep LF self.m_comment).map
                (fun line => ascii "// " ++ line ++ [LF])).flatten ++ [LF])) := by
    by_cases hc : self.m_comment = []
    · simp [headerBytes, hc]
    · simp [headerBytes, hc, isEmpty_eq_false_of_ne_nil _ hc, commentBlock,
        streamCommentLines_eq]
  have hE : effectivePath self path = (if path = [] then self.m_path else path) := by
    by_cases hp : path = []
    · simp [effectivePath, hp]
    · simp [effectivePath, hp, isEmpty_eq_false_of_ne_nil _ hp]
  refine ⟨transcodeLines (toJson self.document), transcode_eq_transcodeLines _, ?_⟩
  rcases save_cases codec toJson self fs path isAtomic with
    ⟨_, _, hs⟩ | ⟨_, _, hs⟩ | ⟨_, _, _, _, fs2, hs, _⟩ | ⟨_, _, _, fs2, hs, hf⟩
  · rw [hs] at h; simp at h
  · rw [hs] at h; simp at h
  · rw [hs] at h; simp at h
  · rw [hs] at h
    simp only [Option.some.injEq, Prod.mk.injEq, true_and] at h
    rw [← h.2, ← hE, ← hH, hf]

/-- C10 for a comment of two lines and the empty object, saved directly to
the stored path. -/
theorem save_writes_witness :
    ∃ self' fs', save asciiCodec toJsonOfEmpty (emptySettings (ascii "s.json") (ascii "a\nb"))
        (emptyFs true) [] false = some (true, self', fs') ∧
      ∃ data, transcode (toJsonOfEmpty (emptySettings (ascii "s.json") (ascii "a\nb")).document)
          = some data ∧
        fs'.files (ascii "s.json") = some (ascii "// a\n// b\n\n" ++ data) :=
  ⟨_, _, rfl, save_writes asciiCodec toJsonOfEmpty (emptySettings (ascii "s.json") (ascii "a\nb"))
    _ (emptyFs true) _ [] false rfl⟩

/-! ## The round trip of save and load -/

theorem wsNormalize_outside_space (c : Byte) (pending : Bool) (r : List Byte)
    (h : isJsonSpace c = true) :
    wsNormalize .outside pending (c :: r) = wsNormalize .outside true r := by
  simp [wsNormalize, h]

theorem wsNormalize_replicate (c : Byte) (h : isJsonSpace c = true) (n : Nat) (pending : Bool)
    (r : List Byte) :
    wsNormalize .outside pending (List.replicate n c ++ r)
      = wsNormalize .outside (pending || decide (0 < n)) r := by
  induction n generalizing pending with
  | zero => simp
  | succ n ih =>
    rw [List.replicate_succ, List.cons_append, wsNormalize_outside_space c pending _ h, ih]
    simp

theorem wsNormalize_indent (a b : Nat) (pending : Bool) (r : List Byte) :
    wsNormalize .outside pending (List.replicate a TAB ++ List.replicate b SPACE ++ r)
      = wsNormalize .outside (pending || decide (0 < a + b)) r := by
  rw [List.append_assoc, wsNormalize_replicate TAB (by decide),
    wsNormalize_replicate SPACE (by decide)]
  congr 1
  cases pending <;> simp

/-- One byte that is not a newline is treated alike in front of two tails that
have the same normal form in every state. -/
theorem wsNormalize_cons_congr (st : LexState) (pending : Bool) (c : Byte) (x y : List Byte)
    (h : ∀ p, wsNormalize (lexStep st c) p x = wsNormalize (lexStep st c) p y) :
    wsNormalize st pending (c :: x) = wsNormalize st pending (c :: y) := by
  cases st with
  | outside =>
    by_cases hs : isJsonSpace c = true
    · rw [wsNormalize_outside_space c pending x hs, wsNormalize_outside_space c pending y hs]
      have hq : c ≠ QUOTE := by
        intro e; subst e; exact absurd hs (by decide)
      have := h true
      simpa [lexStep, hq] using this
    · simp only [wsNormalize, hs, Bool.false_eq_true, if_false, h false]
  | inString => simp only [wsNormalize, h false]
  | escaped => simp only [wsNormalize, h false]

theorem wsNormalize_tabify (x : List Byte) :
    (∀ st pending, newlinesOutsideStrings st x = true →
      wsNormalize st pending (tabify none x) = wsNormalize st pending x) ∧
    (∀ k pending, newlinesOutsideStrings .outside x = true →
      wsNormalize .outside pending (tabify (some k) x)
        = wsNormalize .outside (pending || decide (0 < k)) x) := by
  induction x with
  | nil =>
    constructor
    · intro st pending _; simp [tabify]
    · intro k pending _
      have := wsNormalize_replicate SPACE (by decide) k pending []
      simpa [tabify] using this
  | cons c r ih =>
    obtain ⟨ihN, ihS⟩ := ih
    have hLF : isJsonSpace LF = true := by decide
    have hstep : lexStep .outside LF = .outside := by decide
    constructor
    · intro st pending h
      simp only [newlinesOutsideStrings, Bool.and_eq_true, Bool.or_eq_true,
        decide_eq_true_eq] at h
      by_cases hc : c = LF
      · subst hc
        have hst : st = .outside := by
          rcases h.1 with h1 | h1
          · exact absurd rfl h1
          · exact h1
        subst hst
        have hr : newlinesOutsideStrings .outside r = true := by
          simpa [hstep] using h.2
        simp only [tabify, if_true]
        rw [wsNormalize_outside_space LF pending _ hLF,
          wsNormalize_outside_space LF pending _ hLF, ihS 0 true hr]
        simp
      · simp only [tabify, hc, if_false]
        exact wsNormalize_cons_congr st pending c _ _ (fun p => ihN _ p h.2)
    · intro k pending h
      simp only [newlinesOutsideStrings, Bool.and_eq_true, Bool.or_eq_true,
        decide_eq_true_eq] at h
      by_cases hc : c = LF
      · subst hc
        have hr : newlinesOutsideStrings .outside r = true := by
          simpa [hstep] using h.2
        simp only [tabify, if_true]
        rw [wsNormalize_replicate SPACE (by decide), wsNormalize_outside_space LF _ _ hLF,
          wsNormalize_outside_space LF _ _ hLF, ihS 0 true hr]
        simp
      · by_cases hs : c = SPACE
        · subst hs
          have hr : newlinesOutsideStrings .outside r = true := by
            have : lexStep .outside SPACE = .outside := by decide
            simpa [this] using h.2
          simp only [tabify, hc, if_false, if_true]
          rw [ihS (k + 1) pending hr, wsNormalize_outside_space SPACE _ _ (by decide)]
          simp
        · simp only [tabify, hc, hs, if_false]
          rw [wsNormalize_indent]
          have e : (pending || decide (0 < k / 4 + k % 4)) = (pending || decide (0 < k)) := by
            congr 1
            simp only [decide_eq_decide]
            omega
          rw [e]
          exact wsNormalize_cons_congr .outside _ c _ _ (fun p => ihN _ p h.2)

/-- The indentation scan keeps the whitespace normal form of a text whose
newlines are outside string literals. -/
theorem wsNormalize_transcodeLines (x : List Byte)
    (h : newlinesOutsideStrings .outside x = true) :
    wsNormalize .outside false (transcodeLines x) = wsNormalize .outside false x := by
  rw [← tabify_eq_transcodeLines, (wsNormalize_tabify x).2 0 false h]
  simp

theorem readLineBytes_append_LF (l rest : QByteArray) (h : LF ∉ l) :
    readLineBytes (l ++ LF :: rest) = (l, rest) := by
  induction l with
  | nil => simp [readLineBytes]
  | cons c r ih =>
    have hc : c ≠ LF := fun e => h (by simp [e])
    have hr : LF ∉ r := fun e => h (List.mem_cons_of_mem _ e)
    simp [readLineBytes, hc, ih hr]

theorem stripCR_of_no_CR (line : QString) (h : line.getLast? ≠ some CR) :
    stripCR (ascii "// " ++ line) = ascii "// " ++ line := by
  unfold stripCR
  have hl : (ascii "// " ++ line).getLast? ≠ some CR := by
    cases line with
    | nil => decide
    | cons c r =>
      rw [List.getLast?_append_of_ne_nil _ (by simp)]
      exact h
  rw [if_neg hl]

/-- The header loop reads back the comment lines that `save` streamed, and
stops right after the blank line. -/
theorem headerLoop_written (codec : TextCodec) (tail : QByteArray)
    (h0 : codec.toUnicode [] = []) (lines : List QString) :
    (∀ line ∈ lines, LF ∉ codec.fromUnicode line ∧
      codec.toUnicode (ascii "// " ++ codec.fromUnicode line) = ascii "// " ++ line ∧
      line.getLast? ≠ some CR) →
    ∀ (acc : List QString) (fuel : Nat),
      ((lines.map (fun line => ascii "// " ++ codec.fromUnicode line ++ [LF])).flatten
        ++ LF :: tail).length ≤ fuel →
      headerLoop codec fuel acc
        ((lines.map (fun line => ascii "// " ++ codec.fromUnicode line ++ [LF])).flatten
          ++ LF :: tail) = some (acc ++ lines, tail) := by
  induction lines with
  | nil =>
    intro _ acc fuel hf
    obtain ⟨f, rfl⟩ : ∃ f, fuel = f + 1 := ⟨fuel - 1, by simp at hf; omega⟩
    have hline : lineText codec [] = [] := by simp [lineText, h0, stripCR]
    simp [headerLoop, readLineBytes, hline, startsWithSlashes]
  | cons l ls ih =>
    intro hall acc fuel hf
    obtain ⟨hLF, hdec, hCR⟩ := hall l (List.mem_cons_self _ _)
    have hall' : ∀ line ∈ ls, LF ∉ codec.fromUnicode line ∧
        codec.toUnicode (ascii "// " ++ codec.fromUnicode line) = ascii "// " ++ line ∧
        line.getLast? ≠ some CR := fun x hx => hall x (List.mem_cons_of_mem _ hx)
    have hbytes : ((l :: ls).map
          (fun line => ascii "// " ++ codec.fromUnicode line ++ [LF])).flatten ++ LF :: tail
        = (ascii "// " ++ codec.fromUnicode l) ++ LF ::
          ((ls.map (fun line => ascii "// " ++ codec.fromUnicode line ++ [LF])).flatten
            ++ LF :: tail) := by
      simp
    rw [hbytes] at hf ⊢
    obtain ⟨f, rfl⟩ : ∃ f, fuel = f + 1 := ⟨fuel - 1, by simp at hf; omega⟩
    have hno : LF ∉ ascii "// " ++ codec.fromUnicode l := by
      intro hm
      rcases List.mem_append.mp hm with hm | hm
      · exact absurd hm (by decide)
      · exact hLF hm
    have hline : lineText codec (ascii "// " ++ codec.fromUnicode l) = ascii "// " ++ l := by
      rw [lineText, hdec, stripCR_of_no_CR l hCR]
    have hne : ((ascii "// " ++ codec.fromUnicode l) ++ LF ::
          ((ls.map (fun line => ascii "// " ++ codec.fromUnicode line ++ [LF])).flatten
            ++ LF :: tail)).isEmpty = false := rfl
    have hstart : startsWithSlashes (ascii "// " ++ l) = true := rfl
    have hmid : mid (ascii "// " ++ l) 3 = l := rfl
    have hf' : ((ls.map (fun line => ascii "// " ++ codec.fromUnicode line ++ [LF])).flatten
        ++ LF :: tail).length ≤ f := by
      simp only [List.length_append, List.length_cons] at hf ⊢
      omega
    simp only [headerLoop, hne, readLineBytes_append_LF _ _ hno, hline, hstart, hmid,
      if_true, Bool.false_eq_true, if_false]
    rw [ih hall' (acc ++ [l]) f hf']
    simp

theorem transcodeLines_head (x : List Byte) (c : Byte) (h : x.head? = some c)
    (hc : c ≠ LF) (hs : c ≠ SPACE) : (transcodeLines x).head? = some c := by
  cases x with
  | nil => simp at h
  | cons d r =>
    simp only [List.head?_cons, Option.some.injEq] at h
    subst h
    rw [← tabify_eq_transcodeLines]
    simp [tabify, hc, hs]

theorem take_two_ne_of_head (x : List Byte) (c : Byte) (h : x.head? = some c) (hc : c ≠ SLASH) :
    x.take 2 ≠ [SLASH, SLASH] := by
  cases x with
  | nil => simp
  | cons d r =>
    simp only [List.head?_cons, Option.some.injEq] at h
    subst h
    intro ht
    cases r with
    | nil => simp at ht
    | cons e r2 =>
      simp only [List.take_succ_cons, List.take_zero, List.cons.injEq, and_true] at ht
      exact hc ht.1

theorem adoptDocument_of_value (d : QJsonDocument)
    (h : d.isArray = true ∨ d.isObject = true) : adoptDocument d = d := by
  cases d with
  | null => simp [QJsonDocument.isArray, QJsonDocument.isObject] at h
  | array a => rfl
  | object o => rfl

/-- C1 fails as stated: the comment `a` followed by a carriage return is
written as the line `// a\r`; the text stream drops the carriage return in
front of the line feed when it reads the line back, and the loaded comment is
`a`. -/
theorem round_trip_counterexample :
    ∃ self' fs' loaded,
      save asciiCodec toJsonOfEmpty (emptySettings (ascii "s.json") (ascii "a\r"))
        (emptyFs true) [] false = some (true, self', fs') ∧
      fs'.files (ascii "s.json") = some (ascii "// a\r\n\n\x7b\n\x7d\n") ∧
      load asciiCodec fromJsonOfEmpty (ascii "s.json") (fs'.files (ascii "s.json"))
        = some loaded ∧
      loaded.m_comment = ascii "a" ∧
      loaded.m_comment ≠ (emptySettings (ascii "s.json") (ascii "a\r")).m_comment :=
  ⟨_, _, _, rfl, rfl, rfl, rfl, by decide⟩

/-- C1, amended. Save/load round trip: let the value of the document be a
top-level object or array that the JSON library serializes and parses
faithfully, and let its comment be text that the UTF-8 codec encodes and
decodes faithfully and in which no line ends with a carriage return. Then
loading the bytes that a successful save has written to the effective path
yields a document with the same comment and the same value. -/
theorem save_load_round_trip (codec : TextCodec) (toJson : QJsonDocument → QByteArray)
    (fromJson : QByteArray → QJsonDocument) (self self' : JsonSettings)
    (fs fs' : FileSystem) (path : QString) (isAtomic : Bool)
    (hvalue : self.document.isArray = true ∨ self.document.isObject = true)
    (hjson : JsonFaithful toJson fromJson self.document)
    (hcodec : CodecFaithful codec self.m_comment)
    (hcr : NoLineEndsWithCR self.m_comment)
    (hsave : save codec toJson self fs path isAtomic = some (true, self', fs')) :
    ∃ loaded,
      load codec fromJson (effectivePath self path) (fs'.files (effectivePath self path))
        = some loaded ∧
      loaded.m_comment = self.m_comment ∧ loaded.document = self.document := by
  obtain ⟨hJ1, hJ2, hJ3, hJ4⟩ := hjson
  obtain ⟨hC0, hCblock, hClines⟩ := hcodec
  -- what the file holds
  have hfile : fs'.files (effectivePath self path)
      = some (headerBytes codec self.m_comment ++ transcodeLines (toJson self.document)) := by
    rcases save_cases codec toJson self fs path isAtomic with
      ⟨_, _, hs⟩ | ⟨_, _, hs⟩ | ⟨_, _, _, _, fs2, hs, _⟩ | ⟨_, _, _, fs2, hs, hf⟩
    · rw [hs] at hsave; simp at hsave
    · rw [hs] at hsave; simp at hsave
    · rw [hs] at hsave; simp at hsave
    · rw [hs] at hsave
      simp only [Option.some.injEq, Prod.mk.injEq, true_and] at hsave
      rw [← hsave.2, hf]
  -- the parser reads the value back from the tab-indented text
  have hparse : fromJson (transcodeLines (toJson self.document)) = self.document := by
    rw [hJ2 _ _ (wsNormalize_transcodeLines _ hJ3), hJ1]
  have hadopt := adoptDocument_of_value self.document hvalue
  rw [hfile]
  by_cases hc : self.m_comment = []
  · -- no comment: the file is the JSON text, which does not begin with slashes
    have hhead : ∃ c, (transcodeLines (toJson self.document)).head? = some c ∧ c ≠ SLASH := by
      rcases hJ4 with h | h
      · exact ⟨123, transcodeLines_head _ 123 h (by decide) (by decide), by decide⟩
      · exact ⟨91, transcodeLines_head _ 91 h (by decide) (by decide), by decide⟩
    obtain ⟨c, hc1, hc2⟩ := hhead
    have hne := take_two_ne_of_head _ c hc1 hc2
    refine ⟨{ document := adoptDocument (fromJson (transcodeLines (toJson self.document))),
              m_path := effectivePath self path, m_comment := [], m_hasError := false },
      ?_, hc.symm, by rw [hparse, hadopt]⟩
    simp only [load, loadBytes, headerBytes, hc, List.isEmpty_nil, if_true, List.nil_append,
      splitHeader_no_header codec _ hne]
  · -- a comment: the header loop reads its lines back and stops after the blank line
    have hbytes : headerBytes codec self.m_comment ++ transcodeLines (toJson self.document)
        = ((splitOnSep LF self.m_comment).map
            (fun line => ascii "// " ++ codec.fromUnicode line ++ [LF])).flatten
          ++ LF :: transcodeLines (toJson self.document) := by
      simp [headerBytes, isEmpty_eq_false_of_ne_nil _ hc, hCblock]
    have hloop := headerLoop_written codec (transcodeLines (toJson self.document)) hC0
      (splitOnSep LF self.m_comment)
      (fun line hl => ⟨(hClines line hl).1, (hClines line hl).2, hcr line hl⟩) []
      _ (le_refl _)
    have hstart : (((splitOnSep LF self.m_comment).map
            (fun line => ascii "// " ++ codec.fromUnicode line ++ [LF])).flatten
          ++ LF :: transcodeLines (toJson self.document)).take 2 = [SLASH, SLASH] := by
      obtain ⟨l, ls, hl⟩ := splitOnSep_exists LF self.m_comment
      rw [hl]
      rfl
    refine ⟨{ document := adoptDocument (fromJson (transcodeLines (toJson self.document))),
              m_path := effectivePath self path, m_comment := self.m_comment,
              m_hasError := false },
      ?_, rfl, by rw [hparse, hadopt]⟩
    rw [hbytes]
    simp only [load, loadBytes, splitHeader, hstart, if_true, hloop, List.nil_append,
      joinSep_splitOnSep]

/-- C1, amended, for the empty object with a comment of two lines, saved
atomically to the stored path. -/
theorem save_load_round_trip_witness :
    ∃ self' fs',
      save asciiCodec toJsonOfEmpty (emptySettings (ascii "s.json") (ascii "a\nb"))
        (emptyFs true) [] true = some (true, self', fs') ∧
      ∃ loaded,
        load asciiCodec fromJsonOfEmpty (ascii "s.json") (fs'.files (ascii "s.json"))
          = some loaded ∧
        loaded.m_comment = ascii "a\nb" ∧ loaded.document = QJsonDocument.object [] :=
  ⟨_, _, rfl,
    save_load_round_trip asciiCodec toJsonOfEmpty fromJsonOfEmpty
      (emptySettings (ascii "s.json") (ascii "a\nb")) _ (emptyFs true) _ [] true
      (Or.inr rfl)
      ⟨rfl, fun a b h => by unfold fromJsonOfEmpty; rw [h], rfl, Or.inl rfl⟩
      ⟨rfl, rfl, by decide⟩
      (by unfold NoLineEndsWithCR; decide)
      rfl⟩

/-! ## The states the scan passes through -/

theorem byteAt_replicate_mid (done rest : QByteArray) (k : Nat) (b : Byte) (j : Int)
    (h1 : (done.length : Int) ≤ j) (h2 : j < (done.length : Int) + k) :
    byteAt (done ++ List.replicate k b ++ rest) j = some b := by
  obtain ⟨m, rfl⟩ : ∃ m : Nat, j = ((done.length + m : Nat) : Int) :=
    ⟨(j - done.length).toNat, by omega⟩
  have hm : m < k := by omega
  have hsplit : done ++ List.replicate k b ++ rest
      = (done ++ List.replicate m b) ++ b :: (List.replicate (k - m - 1) b ++ rest) := by
    have : List.replicate k b = List.replicate m b ++ b :: List.replicate (k - m - 1) b := by
      rw [← List.replicate_succ, ← List.replicate_add]; congr 1; omega
    rw [this]; simp
  have hlen : ((done.length + m : Nat) : Int) = ((done ++ List.replicate m b).length : Int) := by
    simp
  rw [hsplit, hlen, byteAt_append_cons]

theorem scanInv_init (data : QByteArray) : ScanInv (scanInit data) :=
  ⟨[], data, 0, Or.inl ⟨rfl, by simp [scanInit], rfl, rfl, rfl, rfl⟩⟩

/-- One iteration from a state of the invariant shape: the iteration is
defined, the next state has the shape again, the distance from the cursor to
the end of the array drops by one, and a `replace` that runs is in bounds. -/
theorem scanInv_step (s : ScanState) (h : ScanInv s) (hc : scanCond s = true) :
    ∃ s', scanStep s = some s' ∧ ScanInv s' ∧
      scanRemaining s' = scanRemaining s - 1 ∧
      (scanReplaces s = false → s'.data = s.data ∧ s'.i = s.i + 1) ∧
      (scanReplaces s = true →
        (s'.data.length : Int) = (s.data.length : Int) - s.tabsAmount * 3 ∧
        s'.i = s.i - s.tabsAmount * 3 + 1 ∧
        0 ≤ s.lineStartPosition ∧
        s.lineStartPosition + s.tabsAmount * 4 ≤ (s.data.length : Int) ∧
        s.lineStartPosition + s.tabsAmount * 4 ≤ s.i ∧
        (∀ j : Int, s.lineStartPosition ≤ j → j < s.lineStartPosition + s.tabsAmount * 4 →
          byteAt s.data j = some SPACE) ∧
        0 ≤ s.i - s.tabsAmount * 3 ∧
        s.lineStartPosition ≤ s.i - s.tabsAmount * 3 ∧
        ∃ c, byteAt s.data s.i = some c ∧ c ≠ SPACE ∧ c ≠ LF ∧
          byteAt s'.data (s.i - s.tabsAmount * 3) = some c) := by
  obtain ⟨data, i, sp, tb, ls, b⟩ := s
  obtain ⟨done, rest, k, h | h⟩ := h
  · simp only at h
    obtain ⟨rfl, rfl, rfl, rfl, rfl, rfl⟩ := h
    cases rest with
    | nil => simp [scanCond] at hc
    | cons c r =>
      have hlen : ((done.length + k : Nat) : Int)
          = ((done ++ List.replicate k SPACE).length : Int) := by simp
      have hat : byteAt (done ++ List.replicate k SPACE ++ c :: r)
          ((done.length + k : Nat) : Int) = some c := by
        rw [hlen]; exact byteAt_append_cons _ _ _
      have hrepEq : scanReplaces ⟨done ++ List.replicate k SPACE ++ c :: r,
          ((done.length + k : Nat) : Int), ((k % 4 : Nat) : Int), ((k / 4 : Nat) : Int),
          (done.length : Int), true⟩
          = (decide (c ≠ LF) && true && decide (c ≠ SPACE)
              && decide ((0 : Int) < ((k / 4 : Nat) : Int))) := by
        simp only [scanReplaces, hat]
      by_cases hLF : c = LF
      · subst hLF
        refine ⟨_, by rw [hlen]; exact scanStep_newline _ _ _ _ _ _,
          ⟨done ++ List.replicate k SPACE ++ [LF], r, 0,
            Or.inl ⟨rfl, by simp, by simp; omega, rfl, rfl, by simp; omega⟩⟩, ?_, ?_, ?_⟩
        · simp [scanRemaining]; omega
        · intro _; exact ⟨rfl, by simp⟩
        · intro hr; rw [hrepEq] at hr; simp at hr
      · by_cases hS : c = SPACE
        · subst hS
          refine ⟨_, by rw [hlen]; exact scanStep_space _ _ _ _,
            ⟨done, r, k + 1, Or.inl ⟨rfl, ?_, by simp; omega, rfl, rfl, rfl⟩⟩, ?_, ?_, ?_⟩
          · show done ++ List.replicate k SPACE ++ SPACE :: r
              = done ++ List.replicate (k + 1) SPACE ++ r
            rw [List.replicate_succ']; simp
          · simp [scanRemaining]; omega
          · intro _; exact ⟨rfl, by simp⟩
          · intro hr; rw [hrepEq] at hr; simp at hr
        · by_cases ht : 0 < k / 4
          · refine ⟨_, scanStep_first_tabs done r c k _ hLF hS ht,
              ⟨done ++ List.replicate (k / 4) TAB ++ List.replicate (k % 4) SPACE ++ [c], r, 0,
                Or.inr ⟨rfl, by simp, by simp; omega⟩⟩, ?_, ?_, ?_⟩
            · simp [scanRemaining]; omega
            · intro hr
              have : (0 : Int) < ((k / 4 : Nat) : Int) := by omega
              rw [hrepEq] at hr
              simp [hLF, hS] at hr
              omega
            · intro _
              dsimp only
              refine ⟨by simp; omega, by simp; omega, by omega, by simp; omega, by omega,
                ?_, by omega, by omega, c, hat, hS, hLF, ?_⟩
              · intro j hj1 hj2
                exact byteAt_replicate_mid done (c :: r) k SPACE j hj1 (by omega)
              · have e : ((done.length + k : Nat) : Int) - ((k / 4 : Nat) : Int) * 3
                    = ((done ++ List.replicate (k / 4) TAB
                        ++ List.replicate (k % 4) SPACE).length : Int) := by
                  simp; omega
                rw [e, byteAt_append_cons]
          · have hk0 : k / 4 = 0 := by omega
            refine ⟨⟨done ++ List.replicate k SPACE ++ c :: r, ((done.length + k : Nat) : Int) + 1,
                ((k % 4 : Nat) : Int), ((k / 4 : Nat) : Int), (done.length : Int), false⟩, ?_,
              ⟨done ++ List.replicate k SPACE ++ [c], r, 0,
                Or.inr ⟨rfl, by simp, by simp; omega⟩⟩, ?_, ?_, ?_⟩
            · rw [hk0, hlen]
              exact scanStep_first_no_tabs _ _ _ _ _ hLF hS
            · simp [scanRemaining]; omega
            · intro _; exact ⟨rfl, rfl⟩
            · intro hr
              rw [hrepEq, hk0] at hr
              simp at hr
  · simp only at h
    obtain ⟨rfl, rfl, rfl⟩ := h
    cases rest with
    | nil => simp [scanCond] at hc
    | cons c r =>
      have hrep : scanReplaces ⟨done ++ c :: r, (done.length : Int), sp, tb, ls, false⟩ = false := by
        simp [scanReplaces, byteAt_append_cons]
      by_cases hLF : c = LF
      · subst hLF
        refine ⟨_, scanStep_newline _ _ _ _ _ _,
          ⟨done ++ [LF], r, 0, Or.inl ⟨rfl, by simp, by simp, rfl, rfl, by simp⟩⟩, ?_, ?_, ?_⟩
        · simp [scanRemaining]
        · intro _; exact ⟨rfl, rfl⟩
        · intro hr; rw [hrep] at hr; exact absurd hr (by decide)
      · refine ⟨_, scanStep_copy _ _ _ _ _ _ hLF,
          ⟨done ++ [c], r, 0, Or.inr ⟨rfl, by simp, by simp⟩⟩, ?_, ?_, ?_⟩
        · simp [scanRemaining]
        · intro _; exact ⟨rfl, rfl⟩
        · intro hr; rw [hrep] at hr; exact absurd hr (by decide)

theorem scanRun_inv (n : Nat) : ∀ (s s' : ScanState), ScanInv s → scanRun n s = some s' →
    ScanInv s' ∧ scanRemaining s' = scanRemaining s - n := by
  induction n with
  | zero =>
    intro s s' h hr
    simp only [scanRun, Option.some.injEq] at hr
    subst hr
    exact ⟨h, by simp⟩
  | succ n ih =>
    intro s s' h hr
    by_cases hc : scanCond s = true
    · obtain ⟨s1, hs1, hinv, hrem, _⟩ := scanInv_step s h hc
      simp only [scanRun, hc, if_true, hs1, Option.some_bind] at hr
      obtain ⟨h1, h2⟩ := ih s1 s' hinv hr
      exact ⟨h1, by rw [h2, hrem]; push_cast; omega⟩
    · simp [scanRun, hc] at hr

theorem scanRun_exists (n : Nat) : ∀ (s : ScanState), ScanInv s → (n : Int) ≤ scanRemaining s →
    ∃ s', scanRun n s = some s' := by
  induction n with
  | zero => intro s _ _; exact ⟨s, rfl⟩
  | succ n ih =>
    intro s h hn
    have hc : scanCond s = true := by
      simp only [scanCond, decide_eq_true_eq]
      simp only [scanRemaining] at hn
      push_cast at hn; omega
    obtain ⟨s1, hs1, hinv, hrem, _⟩ := scanInv_step s h hc
    obtain ⟨s', hs'⟩ := ih s1 hinv (by rw [hrem]; push_cast at hn; omega)
    exact ⟨s', by simp [scanRun, hc, hs1, hs']⟩

theorem scanLoop_of_scanRun (n : Nat) : ∀ (s s' : ScanState) (fuel : Nat),
    scanRun n s = some s' → scanCond s' = false → n ≤ fuel →
    scanLoop fuel s = some s'.data := by
  induction n with
  | zero =>
    intro s s' fuel hr hc _
    simp only [scanRun, Option.some.injEq] at hr
    subst hr
    exact scanLoop_exit fuel s hc
  | succ n ih =>
    intro s s' fuel hr hc hf
    obtain ⟨f, rfl⟩ : ∃ f, fuel = f + 1 := ⟨fuel - 1, by omega⟩
    by_cases hcs : scanCond s = true
    · cases hs : scanStep s with
      | none => simp [scanRun, hcs, hs] at hr
      | some s1 =>
        simp only [scanRun, hcs, if_true, hs, Option.some_bind] at hr
        rw [scanLoop_iter f s s1 hcs hs]
        exact ih s1 s' f hr hc (by omega)
    · simp [scanRun, hcs] at hr

theorem scanCond_iff_remaining (s : ScanState) : scanCond s = true ↔ 0 < scanRemaining s := by
  simp only [scanCond, scanRemaining, decide_eq_true_eq]
  omega

theorem scanRemaining_init (data : QByteArray) :
    scanRemaining (scanInit data) = (data.length : Int) := by
  simp [scanRemaining, scanInit]

/-- C14. Indentation idempotence: the scan finishes on every byte sequence,
and run on its own output it finishes with that output again. -/
theorem transcode_idempotent (x : QByteArray) :
    ∃ out, transcode x = some out ∧ transcode out = some out := by
  have hline : ∀ l : List Byte, transcodeLine (transcodeLine l) = transcodeLine l := by
    intro l
    by_cases h : l.dropWhile (· = SPACE) = []
    · have h1 : transcodeLine l = l := by simp [transcodeLine, h]
      rw [h1, h1]
    · obtain ⟨c, rest, hcr⟩ : ∃ c rest, l.dropWhile (· = SPACE) = c :: rest := by
        cases hd : l.dropWhile (· = SPACE) with
        | nil => exact absurd hd h
        | cons c rest => exact ⟨c, rest, rfl⟩
      have hc : c ≠ SPACE := by
        have := List.head_dropWhile_not (· = SPACE) l (by rw [hcr]; simp)
        simpa [hcr] using this
      have hl := leading_spaces_split l
      rw [hcr] at hl
      generalize (l.takeWhile (· = SPACE)).length = k at hl
      rw [hl, transcodeLine_first k c rest hc]
      by_cases ht : 0 < k / 4
      · obtain ⟨t, ht'⟩ : ∃ t, k / 4 = t + 1 := ⟨k / 4 - 1, by omega⟩
        rw [ht', List.replicate_succ]
        have hT : TAB ≠ SPACE := by decide
        have := transcodeLine_first 0 TAB
          (List.replicate t TAB ++ List.replicate (k % 4) SPACE ++ c :: rest) hT
        simpa using this
      · have hk0 : k / 4 = 0 := by omega
        have hk1 : k % 4 < 4 := Nat.mod_lt _ (by decide)
        have := transcodeLine_first (k % 4) c rest hc
        have e1 : k % 4 / 4 = 0 := by omega
        have e2 : k % 4 % 4 = k % 4 := by omega
        rw [e1, e2] at this
        simpa [hk0] using this
  refine ⟨transcodeLines x, transcode_eq_transcodeLines x, ?_⟩
  rw [transcode_eq_transcodeLines]
  congr 1
  conv_lhs => rw [transcodeLines, splitOnSep_transcodeLines, List.map_map]
  unfold transcodeLines
  congr 1
  apply List.map_congr_left
  intro l _
  exact hline l

/-- C15. The in-place scan refines the line-oriented transform: for every
input the scan finishes, and its result is the input split on newlines, every
line rewritten on its own, and the lines joined with newlines again. -/
theorem scan_refines_line_transform (data : QByteArray) :
    transcode data = some (joinSep LF ((splitOnSep LF data).map transcodeLine)) := by
  rw [transcode_eq_tabify, tabify_eq_transcodeLines]
  rfl

/-- C16. A line that holds only spaces is output unchanged, however many
spaces it holds and whether a newline or the end of the input ends it. -/
theorem transcode_blank_line (data : QByteArray) (j k : Nat)
    (hline : (splitOnSep LF data)[j]? = some (List.replicate k SPACE)) :
    ∃ out, transcode data = some out ∧
      (splitOnSep LF out)[j]? = some (List.replicate k SPACE) := by
  refine ⟨transcodeLines data, transcode_eq_transcodeLines data, ?_⟩
  rw [splitOnSep_transcodeLines, List.getElem?_map, hline, Option.map_some',
    transcodeLine_spaces]

/-- C16 for a line of eight spaces ended by a newline and a line of four
spaces ended by the end of the input. -/
theorem transcode_blank_line_witness :
    (∃ out, transcode (ascii "\x7b\n        \n    ") = some out ∧
      (splitOnSep LF out)[1]? = some (ascii "        ")) ∧
    (∃ out, transcode (ascii "\x7b\n        \n    ") = some out ∧
      (splitOnSep LF out)[2]? = some (ascii "    ")) :=
  ⟨transcode_blank_line (ascii "\x7b\n        \n    ") 1 8 (by decide),
   transcode_blank_line (ascii "\x7b\n        \n    ") 2 4 (by decide)⟩

/-- C17. The scan terminates although its cursor moves backwards. In every
iteration of a run from the initial state the distance from the cursor to the
end of the array drops by exactly one: an iteration without `replace` keeps
the array and advances the cursor, an iteration with `replace` shortens the
array by `3 * tabsAmount` and leaves the cursor `3 * tabsAmount - 1` bytes
further back. So the loop condition holds before each of the first
`data.length` iterations and fails after them, and the loop yields its
result. -/
theorem scan_terminates (data : QByteArray) :
    (∀ (n : Nat) (s : ScanState), scanRun n (scanInit data) = some s → scanCond s = true →
      ∃ s', scanStep s = some s' ∧
        scanRemaining s' = scanRemaining s - 1 ∧
        (scanReplaces s = false → s'.data = s.data ∧ s'.i = s.i + 1) ∧
        (scanReplaces s = true →
          (s'.data.length : Int) = (s.data.length : Int) - s.tabsAmount * 3 ∧
          s'.i = s.i - s.tabsAmount * 3 + 1)) ∧
    (∀ n : Nat, n < data.length →
      ∃ s, scanRun n (scanInit data) = some s ∧ scanCond s = true) ∧
    (∃ s, scanRun data.length (scanInit data) = some s ∧ scanCond s = false ∧
      transcode data = some s.data) := by
  refine ⟨?_, ?_, ?_⟩
  · intro n s hrun hc
    obtain ⟨hinv, _⟩ := scanRun_inv n _ s (scanInv_init data) hrun
    obtain ⟨s', h1, _, h2, h3, h4⟩ := scanInv_step s hinv hc
    exact ⟨s', h1, h2, h3, fun hr => ⟨(h4 hr).1, (h4 hr).2.1⟩⟩
  · intro n hn
    obtain ⟨s, hs⟩ := scanRun_exists n _ (scanInv_init data)
      (by rw [scanRemaining_init]; omega)
    obtain ⟨_, hrem⟩ := scanRun_inv n _ s (scanInv_init data) hs
    refine ⟨s, hs, (scanCond_iff_remaining s).2 ?_⟩
    rw [hrem, scanRemaining_init]; omega
  · obtain ⟨s, hs⟩ := scanRun_exists data.length _ (scanInv_init data)
      (by rw [scanRemaining_init])
    obtain ⟨_, hrem⟩ := scanRun_inv data.length _ s (scanInv_init data) hs
    have hc : scanCond s = false := by
      cases h : scanCond s with
      | false => rfl
      | true =>
        have := (scanCond_iff_remaining s).1 h
        rw [hrem, scanRemaining_init] at this; omega
    exact ⟨s, hs, hc, scanLoop_of_scanRun _ _ s _ hs hc (le_refl _)⟩

/-- C18. Every `replace` of the scan is in bounds and removes only spaces.
When an iteration of a run from the initial state runs the `replace`, the
range from `lineStartPosition` of length `4 * tabsAmount` starts at a
non-negative index, lies inside the array and ends at or before the cursor,
and every byte in it is a space; the cursor moved back by `3 * tabsAmount` is
non-negative, is not before `lineStartPosition`, and in the array after the
`replace` it indexes the byte that the cursor indexed before, which is not a
space. -/
theorem replace_in_bounds (data : QByteArray) (n : Nat) (s : ScanState)
    (hrun : scanRun n (scanInit data) = some s) (hcond : scanCond s = true)
    (hrep : scanReplaces s = true) :
    0 ≤ s.lineStartPosition ∧
    s.lineStartPosition + s.tabsAmount * 4 ≤ (s.data.length : Int) ∧
    s.lineStartPosition + s.tabsAmount * 4 ≤ s.i ∧
    (∀ j : Int, s.lineStartPosition ≤ j → j < s.lineStartPosition + s.tabsAmount * 4 →
      byteAt s.data j = some SPACE) ∧
    0 ≤ s.i - s.tabsAmount * 3 ∧
    s.lineStartPosition ≤ s.i - s.tabsAmount * 3 ∧
    ∃ s' c, scanStep s = some s' ∧
      s'.data = qReplace s.data s.lineStartPosition (s.tabsAmount * 4)
        (List.replicate s.tabsAmount.toNat TAB) ∧
      (s'.data.length : Int) = (s.data.length : Int) - s.tabsAmount * 3 ∧
      byteAt s.data s.i = some c ∧ c ≠ SPACE ∧
      byteAt s'.data (s.i - s.tabsAmount * 3) = some c := by
  obtain ⟨hinv, _⟩ := scanRun_inv n _ s (scanInv_init data) hrun
  obtain ⟨s', h1, _, _, _, h4⟩ := scanInv_step s hinv hcond
  obtain ⟨a1, _, a3, a4, a5, a6, a7, a8, c, a9, a10, a11, a12⟩ := h4 hrep
  refine ⟨a3, a4, a5, a6, a7, a8, s', c, h1, ?_, a1, a9, a10, a12⟩
  -- the array after the iteration is the one `replace` returns
  have hstep := h1
  simp only [scanReplaces, a9, Bool.and_eq_true, decide_eq_true_eq] at hrep
  obtain ⟨⟨⟨hLF, hR⟩, hS⟩, hT⟩ := hrep
  simp only [scanStep, a9, hLF, hR, hS, hT, if_false, if_true, Option.some.injEq] at hstep
  rw [← hstep]

/-- C18 for five spaces and `x`: when the cursor reaches the `x`, the four
bytes from index 0 are replaced by one tab and the cursor goes back to
index 2, where the `x` then is. -/
theorem replace_in_bounds_witness :
    scanRun 5 (scanInit (ascii "     x")) = some stateAtFirstByte ∧
    scanReplaces stateAtFirstByte = true ∧
    (∀ j : Int, 0 ≤ j → j < 4 → byteAt (ascii "     x") j = some SPACE) ∧
    ∃ s' c, scanStep stateAtFirstByte = some s' ∧
      s'.data = qReplace (ascii "     x") 0 4 [TAB] ∧
      (s'.data.length : Int) = 6 - 1 * 3 ∧
      byteAt (ascii "     x") 5 = some c ∧ c ≠ SPACE ∧
      byteAt s'.data (5 - 1 * 3) = some c :=
  ⟨by decide, by decide,
    (replace_in_bounds (ascii "     x") 5 stateAtFirstByte (by decide) (by decide)
      (by decide)).2.2.2.1,
    (replace_in_bounds (ascii "     x") 5 stateAtFirstByte (by decide) (by decide)
      (by decide)).2.2.2.2.2.2⟩

theorem expandTabs_append (a b : List Byte) :
    expandTabs (a ++ b) = expandTabs a ++ expandTabs b := by
  induction a with
  | nil => rfl
  | cons c r ih =>
    by_cases hc : c = TAB <;> simp [expandTabs, hc, ih]

theorem expandTabs_tabs (n : Nat) :
    expandTabs (List.replicate n TAB) = List.replicate (n * 4) SPACE := by
  induction n with
  | zero => rfl
  | succ n ih =>
    rw [List.replicate_succ, expandTabs, if_pos rfl, ih,
      show (n + 1) * 4 = n * 4 + 1 + 1 + 1 + 1 by omega]
    simp [List.replicate_succ]

theorem expandTabs_spaces (n : Nat) :
    expandTabs (List.replicate n SPACE) = List.replicate n SPACE := by
  induction n with
  | zero => rfl
  | succ n ih =>
    have h : SPACE ≠ TAB := by decide
    rw [List.replicate_succ, expandTabs, if_neg h, ih]

theorem expandTabs_tabify (x : List Byte) (hx : TAB ∉ x) :
    expandTabs (tabify none x) = x ∧
    ∀ k, expandTabs (tabify (some k) x) = List.replicate k SPACE ++ x := by
  induction x with
  | nil =>
    exact ⟨rfl, fun k => by simp [tabify, expandTabs_spaces]⟩
  | cons c r ih =>
    have hc : c ≠ TAB := fun e => hx (by simp [e])
    obtain ⟨ihN, ihS⟩ := ih (fun e => hx (List.mem_cons_of_mem _ e))
    have hLT : LF ≠ TAB := by decide
    constructor
    · by_cases hLF : c = LF
      · subst hLF
        simp [tabify, expandTabs, hLT, ihS 0]
      · simp [tabify, hLF, expandTabs, hc, ihN]
    · intro k
      by_cases hLF : c = LF
      · subst hLF
        simp [tabify, expandTabs_append, expandTabs_spaces, expandTabs, hLT, ihS 0]
      · by_cases hS : c = SPACE
        · subst hS
          rw [show tabify (some k) (SPACE :: r) = tabify (some (k + 1)) r by
            simp [tabify, hLF], ihS (k + 1), List.replicate_succ']
          simp
        · have hk : List.replicate (k / 4 * 4) SPACE ++ List.replicate (k % 4) SPACE
              = List.replicate k SPACE := by
            rw [← List.replicate_add]; congr 1; omega
          simp only [tabify, hLF, hS, if_false, expandTabs_append, expandTabs_tabs,
            expandTabs_spaces, expandTabs, hc, ihN, hk]

/-- C19. The indentation scan loses no information on text without tabs: for
an input that holds no tab byte the scan finishes, replacing every tab of its
output by four spaces gives the input back, and so no other input without
tabs has the same output. -/
theorem transcode_expandTabs (data : QByteArray) (h : TAB ∉ data) :
    ∃ out, transcode data = some out ∧ expandTabs out = data ∧
      ∀ other : QByteArray, TAB ∉ other → transcode other = some out → other = data := by
  refine ⟨tabify (some 0) data, transcode_eq_tabify data, ?_, ?_⟩
  · simpa using (expandTabs_tabify data h).2 0
  · intro other ho heq
    rw [transcode_eq_tabify, Option.some.injEq] at heq
    have h1 := (expandTabs_tabify other ho).2 0
    have h2 := (expandTabs_tabify data h).2 0
    rw [heq, h2] at h1
    simpa using h1.symm

/-- C19 for a small serialized object. -/
theorem transcode_expandTabs_witness :
    ∃ out, transcode (ascii "\x7b\n    \"a\": [\n        1\n    ]\n\x7d\n") = some out ∧
      expandTabs out = ascii "\x7b\n    \"a\": [\n        1\n    ]\n\x7d\n" ∧
      ∀ other : QByteArray, TAB ∉ other → transcode other = some out →
        other = ascii "\x7b\n    \"a\": [\n        1\n    ]\n\x7d\n" :=
  transcode_expandTabs (ascii "\x7b\n    \"a\": [\n        1\n    ]\n\x7d\n") (by decide)

/-- C20. Save only touches the error flag of the object: every call of
`save` returns, and the comment, the JSON document and the stored path of the
object after the call are those before it, also when an explicit path was
given. -/
theorem save_frame (codec : TextCodec) (toJson : QJsonDocument → QByteArray)
    (self : JsonSettings) (fs : FileSystem) (path : QString) (isAtomic : Bool) :
    ∃ result self' fs', save codec toJson self fs path isAtomic = some (result, self', fs') ∧
      self'.m_comment = self.m_comment ∧ self'.document = self.document ∧
      self'.m_path = self.m_path := by
  rcases save_cases codec toJson self fs path isAtomic with
    ⟨_, _, hs⟩ | ⟨_, _, hs⟩ | ⟨_, _, _, _, fs2, hs, _⟩ | ⟨_, _, _, fs2, hs, _⟩
  · exact ⟨_, _, _, hs, rfl, rfl, rfl⟩
  · exact ⟨_, _, _, hs, rfl, rfl, rfl⟩
  · exact ⟨_, _, _, hs, rfl, rfl, rfl⟩
  · exact ⟨_, _, _, hs, rfl, rfl, rfl⟩

/-! ## The geometry reader -/

theorem isSpace_of_isDigit (c : QChar) (h : isDigit c = true) : isSpace c = false := by
  simp only [isDigit, Bool.and_eq_true, decide_eq_true_eq] at h
  obtain ⟨h1, h2⟩ := h
  interval_cases c <;> decide

theorem isDigit_of_isSpace (c : QChar) (h : isSpace c = true) : isDigit c = false := by
  cases hd : isDigit c with
  | false => rfl
  | true => rw [isSpace_of_isDigit c hd] at h; exact absurd h (by decide)

theorem isSpace_SPACE : isSpace SPACE = true := by decide

theorem wrapInt_geometry (x w : Int) (hw1 : -2147483648 ≤ w) (hw2 : w ≤ 2147483647) :
    wrapInt (wrapInt (x + w - 1) - x + 1) = w := by
  unfold wrapInt
  omega

theorem guarded_range (b : Bool) (v : Int) :
    -2147483648 ≤ (if b = true then (0 : Int)
        else if -2147483648 ≤ v ∧ v ≤ 2147483647 then v else 0) ∧
    (if b = true then (0 : Int)
        else if -2147483648 ≤ v ∧ v ≤ 2147483647 then v else 0) ≤ 2147483647 := by
  by_cases hb : b = true
  · simp [hb]
  · by_cases hv : -2147483648 ≤ v ∧ v ≤ 2147483647
    · simp only [hb, if_false, hv, and_self, if_true]; exact hv
    · simp [hb, hv]

theorem toIntCore_range (t : QString) :
    -2147483648 ≤ toIntCore t ∧ toIntCore t ≤ 2147483647 := by
  unfold toIntCore
  exact guarded_range _ _

theorem toInt_range (s : QString) : -2147483648 ≤ toInt s ∧ toInt s ≤ 2147483647 :=
  toIntCore_range _

theorem jsonToInt_range (v : QJsonValue) :
    -2147483648 ≤ v.toInt ∧ v.toInt ≤ 2147483647 := by
  cases v <;> simp only [QJsonValue.toInt] <;> omega

/-- The conversion sees a text behind its first character only through its
leading digits and through whether the rest is white space. -/
theorem toIntCore_congr (c : QChar) (x y : QString) (hc : isSpace c = false)
    (h1 : x.takeWhile isDigit = y.takeWhile isDigit)
    (h2 : (x.dropWhile isDigit).all isSpace = (y.dropWhile isDigit).all isSpace) :
    toIntCore (c :: x) = toIntCore (c :: y) := by
  unfold toIntCore
  simp only [List.head?_cons, Option.map_some', Option.getD_some, List.tail_cons]
  by_cases hs : isSign c = true
  · simp only [hs, if_true, h1, h2]
  · simp only [hs, Bool.false_eq_true, if_false]
    by_cases hd : isDigit c = true
    · simp only [List.takeWhile_cons, List.dropWhile_cons, hd, if_true, h1, h2]
    · simp only [List.takeWhile_cons, List.dropWhile_cons, hd, Bool.false_eq_true, if_false,
        List.all_cons, hc, Bool.false_and]

theorem simplifiedFrom_gap (r : QString) :
    (r.all isSpace = true ∧ simplifiedFrom .gap r = []) ∨
    (r.all isSpace = false ∧
      ∃ c rest, simplifiedFrom .gap r = SPACE :: c :: rest ∧ isSpace c = false) := by
  induction r with
  | nil => left; exact ⟨rfl, rfl⟩
  | cons c r ih =>
    by_cases hc : isSpace c = true
    · rcases ih with ⟨h1, h2⟩ | ⟨h1, d, rest, h2, hd⟩
      · left; simp [simplifiedFrom, hc, h1, h2]
      · right
        exact ⟨by simp [hc, h1], d, rest, by simp [simplifiedFrom, hc, h2], hd⟩
    · right
      have hc' : isSpace c = false := by simpa using hc
      exact ⟨by simp [hc'], c, simplifiedFrom .word r, by simp [simplifiedFrom, hc'], hc'⟩

theorem simplifiedFrom_word (r : QString) :
    (simplifiedFrom .word r).takeWhile isDigit = r.takeWhile isDigit ∧
    ((simplifiedFrom .word r).dropWhile isDigit).all isSpace
      = (r.dropWhile isDigit).all isSpace := by
  induction r with
  | nil => exact ⟨rfl, rfl⟩
  | cons c r ih =>
    by_cases hc : isSpace c = true
    · have hd := isDigit_of_isSpace c hc
      have hsp : isDigit SPACE = false := by decide
      rcases simplifiedFrom_gap r with ⟨h1, h2⟩ | ⟨h1, d, rest, h2, hd2⟩
      · simp [simplifiedFrom, hc, hd, h1, h2]
      · simp [simplifiedFrom, hc, hd, h1, h2, hsp, isSpace_SPACE, hd2]
    · have hc' : isSpace c = false := by simpa using hc
      by_cases hd : isDigit c = true
      · simp [simplifiedFrom, hc', hd, ih.1, ih.2]
      · simp [simplifiedFrom, hc', hd]

theorem simplifiedFrom_start (s : QString) :
    simplifiedFrom .start s = simplifiedFrom .start (s.dropWhile isSpace) := by
  induction s with
  | nil => rfl
  | cons c r ih =>
    by_cases hc : isSpace c = true
    · simp [simplifiedFrom, hc, List.dropWhile_cons, ih]
    · simp [hc, List.dropWhile_cons]

theorem dropWhile_isSpace_cases (s : QString) :
    s.dropWhile isSpace = [] ∨
    ∃ c r, s.dropWhile isSpace = c :: r ∧ isSpace c = false := by
  cases h : s.dropWhile isSpace with
  | nil => left; rfl
  | cons c r =>
    right
    have := List.head_dropWhile_not isSpace s (by rw [h]; simp)
    exact ⟨c, r, rfl, by simpa [h] using this⟩

/-- `simplified()` does not change what `toInt()` returns. -/
theorem toInt_simplified (s : QString) : toInt (simplified s) = toInt s := by
  unfold toInt simplified
  rw [simplifiedFrom_start]
  rcases dropWhile_isSpace_cases s with h | ⟨c, r, h, hc⟩
  · rw [h]; rfl
  · rw [h]
    have e : simplifiedFrom .start (c :: r) = c :: simplifiedFrom .word r := by
      simp [simplifiedFrom, hc]
    rw [e, List.dropWhile_cons, hc]
    simp only [Bool.false_eq_true, if_false]
    exact toIntCore_congr c _ _ hc (simplifiedFrom_word r).1 (simplifiedFrom_word r).2

theorem dropTrailingSpaces_eq_nil (r : QString) :
    dropTrailingSpaces r = [] ↔ r.all isSpace = true := by
  induction r with
  | nil => simp [dropTrailingSpaces]
  | cons c r ih =>
    by_cases hc : isSpace c = true
    · by_cases hr : dropTrailingSpaces r = []
      · simp [dropTrailingSpaces, hc, hr, ih.1 hr]
      · have hr' : ¬ r.all isSpace = true := fun h => hr (ih.2 h)
        simp only [Bool.not_eq_true] at hr'
        simp [dropTrailingSpaces, hc, hr, hr']
    · simp [dropTrailingSpaces, hc]

theorem dropTrailingSpaces_all (r : QString) (h : (dropTrailingSpaces r).all isSpace = true) :
    dropTrailingSpaces r = [] := by
  induction r with
  | nil => rfl
  | cons c r ih =>
    by_cases hc : isSpace c = true
    · by_cases hr : dropTrailingSpaces r = []
      · simp [dropTrailingSpaces, hc, hr]
      · exfalso
        apply hr
        apply ih
        simpa [dropTrailingSpaces, hc, hr] using h
    · simp [dropTrailingSpaces, hc] at h

theorem dropTrailingSpaces_digits (r : QString) :
    (dropTrailingSpaces r).takeWhile isDigit = r.takeWhile isDigit ∧
    ((dropTrailingSpaces r).dropWhile isDigit).all isSpace
      = (r.dropWhile isDigit).all isSpace := by
  induction r with
  | nil => exact ⟨rfl, rfl⟩
  | cons c r ih =>
    by_cases hc : isSpace c = true
    · have hd := isDigit_of_isSpace c hc
      by_cases hr : dropTrailingSpaces r = []
      · have := (dropTrailingSpaces_eq_nil r).1 hr
        simp [dropTrailingSpaces, hc, hd, hr, this]
      · have h1 : r.all isSpace = false := by
          cases hall : r.all isSpace with
          | false => rfl
          | true => exact absurd ((dropTrailingSpaces_eq_nil r).2 hall) hr
        have h2 : (dropTrailingSpaces r).all isSpace = false := by
          cases hall : (dropTrailingSpaces r).all isSpace with
          | false => rfl
          | true => exact absurd (dropTrailingSpaces_all r hall) hr
        simp [dropTrailingSpaces, hc, hd, hr, h1, h2]
    · have hc' : isSpace c = false := by simpa using hc
      by_cases hd : isDigit c = true
      · simp [dropTrailingSpaces, hc', hd, ih.1, ih.2]
      · simp [dropTrailingSpaces, hc', hd]

/-- `toInt()` skips the white space around the number by itself. -/
theorem toInt_trimmed (s : QString) : toInt (trimmed s) = toInt s := by
  unfold toInt trimmed
  rcases dropWhile_isSpace_cases s with h | ⟨c, r, h, hc⟩
  · rw [h]; rfl
  · rw [h]
    have e : dropTrailingSpaces (c :: r) = c :: dropTrailingSpaces r := by
      simp [dropTrailingSpaces, hc]
    rw [e, List.dropWhile_cons, hc]
    simp only [Bool.false_eq_true, if_false]
    exact toIntCore_congr c _ _ hc (dropTrailingSpaces_digits r).1
      (dropTrailingSpaces_digits r).2

theorem dropTrailingSpaces_append_spaces (a b : QString) (hb : b.all isSpace = true) :
    dropTrailingSpaces (a ++ b) = dropTrailingSpaces a := by
  induction a with
  | nil =>
    simp only [List.nil_append]
    rw [(dropTrailingSpaces_eq_nil b).2 hb]; rfl
  | cons c r ih => simp [dropTrailingSpaces, ih]

theorem dropTrailingSpaces_idem (x : QString) :
    dropTrailingSpaces (dropTrailingSpaces x) = dropTrailingSpaces x := by
  induction x with
  | nil => rfl
  | cons c r ih =>
    by_cases h : (isSpace c && (dropTrailingSpaces r).isEmpty) = true
    · simp [dropTrailingSpaces, h]
    · have e : dropTrailingSpaces (c :: r) = c :: dropTrailingSpaces r := by
        simp only [dropTrailingSpaces, h, Bool.false_eq_true, if_false]
      rw [e]
      simp only [dropTrailingSpaces, ih, h, Bool.false_eq_true, if_false]

theorem dropTrailingSpaces_length (x : QString) :
    (dropTrailingSpaces x).length ≤ x.length := by
  induction x with
  | nil => simp [dropTrailingSpaces]
  | cons c r ih =>
    by_cases h : (isSpace c && (dropTrailingSpaces r).isEmpty) = true
    · simp [dropTrailingSpaces, h]
    · simp only [dropTrailingSpaces, h, Bool.false_eq_true, if_false, List.length_cons]
      omega

/-- A trimmed text has no white space at its end. -/
theorem trimmed_no_trailing (s a b : QString) (h : trimmed s = a ++ b)
    (hb : b.all isSpace = true) : b = [] := by
  have h1 : dropTrailingSpaces (trimmed s) = trimmed s := dropTrailingSpaces_idem _
  rw [h, dropTrailingSpaces_append_spaces a b hb] at h1
  have h2 := dropTrailingSpaces_length a
  rw [h1] at h2
  simp only [List.length_append] at h2
  exact List.length_eq_zero.mp (by omega)

theorem dropWhile_isSpace_trimmed (s : QString) :
    (trimmed s).dropWhile isSpace = trimmed s := by
  unfold trimmed
  rcases dropWhile_isSpace_cases s with h | ⟨c, r, h, hc⟩
  · rw [h]; rfl
  · rw [h]
    have e : dropTrailingSpaces (c :: r) = c :: dropTrailingSpaces r := by
      simp [dropTrailingSpaces, hc]
    rw [e, List.dropWhile_cons, hc]
    simp

theorem toIntCore_eq_decimalValue (t : QString)
    (h : ∀ a b, t = a ++ b → b.all isSpace = true → b = []) :
    toIntCore t = (decimalValue t).getD 0 := by
  unfold toIntCore decimalValue
  simp only
  generalize hu : (if (Option.map isSign t.head?).getD false = true then t.tail else t) = u
  have hpre : ∃ pre, t = pre ++ u := by
    by_cases hs : (Option.map isSign t.head?).getD false = true
    · rw [if_pos hs] at hu
      cases t with
      | nil => simp at hs
      | cons c r => exact ⟨[c], by rw [← hu]; rfl⟩
    · rw [if_neg hs] at hu
      exact ⟨[], by rw [hu]; rfl⟩
  obtain ⟨pre, hpre⟩ := hpre
  by_cases hd : u.all isDigit = true
  · have h1 : u.takeWhile isDigit = u := by
      rw [List.takeWhile_eq_self_iff]
      intro x hx
      exact (List.all_eq_true.mp hd) x hx
    have h2 : u.dropWhile isDigit = [] := by
      rw [List.dropWhile_eq_nil_iff]
      intro x hx
      exact (List.all_eq_true.mp hd) x hx
    rw [h1, h2, hd]
    by_cases he : u.isEmpty = true
    · simp [he]
    · simp only [he, List.all_nil, Bool.not_true, Bool.or_false, Bool.false_eq_true, if_false]
      split <;> split <;> rfl
  · have hd' : u.all isDigit = false := by simpa using hd
    have hrest : (u.dropWhile isDigit).all isSpace = false := by
      cases hall : (u.dropWhile isDigit).all isSpace with
      | false => rfl
      | true =>
        exfalso
        have hsplit : t = (pre ++ u.takeWhile isDigit) ++ u.dropWhile isDigit := by
          rw [List.append_assoc, List.takeWhile_append_dropWhile]; exact hpre
        have hnil := h _ _ hsplit hall
        rw [List.dropWhile_eq_nil_iff] at hnil
        exact hd (List.all_eq_true.mpr hnil)
    simp [hd', hrest]

/-- What `toInt()` returns: the `int` the trimmed text denotes, and 0 when
the trimmed text is not a valid `int`. -/
theorem toInt_eq_decimalValue (s : QString) :
    toInt s = (decimalValue (trimmed s)).getD 0 := by
  rw [← toInt_trimmed s]
  unfold toInt
  rw [dropWhile_isSpace_trimmed]
  exact toIntCore_eq_decimalValue _ (fun a b hab hb => trimmed_no_trailing s a b hab hb)

theorem ofGeometry_accessors (x y w h : Int)
    (hw : -2147483648 ≤ w ∧ w ≤ 2147483647) (hh : -2147483648 ≤ h ∧ h ≤ 2147483647) :
    (QRect.ofGeometry x y w h).x = x ∧ (QRect.ofGeometry x y w h).y = y ∧
    (QRect.ofGeometry x y w h).width = w ∧ (QRect.ofGeometry x y w h).height = h :=
  ⟨rfl, rfl, wrapInt_geometry x w hw.1 hw.2, wrapInt_geometry y h hh.1 hh.2⟩

theorem fieldInt_eq (f : QString) :
    toInt (simplified f) = (decimalValue (trimmed f)).getD 0 := by
  rw [toInt_simplified, toInt_eq_decimalValue]

/-- C11. Rectangle from a string with four fields: when the string splits on
commas into exactly the four fields `f0`, `f1`, `f2`, `f3`, the rectangle
read has as x, y, width and height, in that order, the integers that the
trimmed fields denote, a field whose trimmed text is not a valid integer
giving 0. -/
theorem readRectangle_string (s f0 f1 f2 f3 : QString)
    (h : splitOnSep COMMA s = [f0, f1, f2, f3]) :
    (readRectangle (.string s)).x = (decimalValue (trimmed f0)).getD 0 ∧
    (readRectangle (.string s)).y = (decimalValue (trimmed f1)).getD 0 ∧
    (readRectangle (.string s)).width = (decimalValue (trimmed f2)).getD 0 ∧
    (readRectangle (.string s)).height = (decimalValue (trimmed f3)).getD 0 := by
  have hr : readRectangle (.string s)
      = QRect.ofGeometry (toInt (simplified f0)) (toInt (simplified f1))
          (toInt (simplified f2)) (toInt (simplified f3)) := by
    simp [readRectangle, h]
  rw [hr]
  have := ofGeometry_accessors (toInt (simplified f0)) (toInt (simplified f1))
    (toInt (simplified f2)) (toInt (simplified f3)) (toInt_range _) (toInt_range _)
  rw [fieldInt_eq, fieldInt_eq, fieldInt_eq, fieldInt_eq] at this
  rw [fieldInt_eq, fieldInt_eq, fieldInt_eq, fieldInt_eq]
  exact this

/-- C11 at the example of the specification, and at a string with a field
that is not a number. -/
theorem readRectangle_string_witness :
    ((readRectangle (.string (ascii "10, 20, 30, 40"))).x = 10 ∧
      (readRectangle (.string (ascii "10, 20, 30, 40"))).y = 20 ∧
      (readRectangle (.string (ascii "10, 20, 30, 40"))).width = 30 ∧
      (readRectangle (.string (ascii "10, 20, 30, 40"))).height = 40) ∧
    ((readRectangle (.string (ascii " -7 ,x,+3,4 0"))).x = -7 ∧
      (readRectangle (.string (ascii " -7 ,x,+3,4 0"))).y = 0 ∧
      (readRectangle (.string (ascii " -7 ,x,+3,4 0"))).width = 3 ∧
      (readRectangle (.string (ascii " -7 ,x,+3,4 0"))).height = 0) :=
  ⟨readRectangle_string (ascii "10, 20, 30, 40") (ascii "10") (ascii " 20") (ascii " 30")
      (ascii " 40") (by decide),
   readRectangle_string (ascii " -7 ,x,+3,4 0") (ascii " -7 ") (ascii "x") (ascii "+3")
      (ascii "4 0") (by decide)⟩

/-- What the code reads of a member, `object.value(name).toInt()`, is the
integer value of the member of that name. -/
theorem value_toInt_eq_memberInt (object : QJsonObject) (name : QString) :
    (QJsonObject.value object name).toInt = memberInt object name := by
  induction object with
  | nil => rfl
  | cons member rest ih =>
    obtain ⟨k, v⟩ := member
    by_cases hk : k = name
    · subst hk
      have h1 : QJsonObject.value ((k, v) :: rest) k = v := by simp [QJsonObject.value]
      have h2 : memberInt ((k, v) :: rest) k = v.toInt := by
        cases v <;> simp [memberInt, List.find?, QJsonValue.toInt]
      rw [h1, h2]
    · have h1 : QJsonObject.value ((k, v) :: rest) name = QJsonObject.value rest name := by
        simp [QJsonObject.value, hk]
      have h2 : memberInt ((k, v) :: rest) name = memberInt rest name := by
        simp [memberInt, List.find?, hk]
      rw [h1, h2, ih]

theorem find_first_member (pre post : QJsonObject) (name : QString) (v : QJsonValue)
    (hpre : ∀ member ∈ pre, member.1 ≠ name) :
    (pre ++ (name, v) :: post).find? (fun member => decide (member.1 = name))
      = some (name, v) := by
  induction pre with
  | nil => simp [List.find?]
  | cons m rest ih =>
    have hm : m.1 ≠ name := hpre m (List.mem_cons_self _ _)
    simp only [List.cons_append, List.find?, hm, decide_False]
    exact ih (fun member h => hpre member (List.mem_cons_of_mem _ h))

/-- C12. Rectangle from an object: the x, y, width and height of the rectangle
read are the integer values of the members named `x`, `y`, `width` and
`height`. The integer value of a member is the number it holds when that is
an integer in the range of `int`; it is 0 when the object holds no member of
the name, when the member is not a number, and when the number is not such an
integer. Members of other names have no part in the result. -/
theorem readRectangle_object (object : QJsonObject) :
    ((readRectangle (.object object)).x = memberInt object (ascii "x") ∧
      (readRectangle (.object object)).y = memberInt object (ascii "y") ∧
      (readRectangle (.object object)).width = memberInt object (ascii "width") ∧
      (readRectangle (.object object)).height = memberInt object (ascii "height")) ∧
    -- a member that holds an integer
    (∀ (name : QString) (pre post : QJsonObject) (n : Int),
      (∀ member ∈ pre, member.1 ≠ name) → -2147483648 ≤ n → n ≤ 2147483647 →
      memberInt (pre ++ (name, .number n) :: post) name = n) ∧
    -- a member that is missing
    (∀ name : QString, (∀ member ∈ object, member.1 ≠ name) → memberInt object name = 0) ∧
    -- a member that is not a number
    (∀ (name : QString) (pre post : QJsonObject) (v : QJsonValue),
      (∀ member ∈ pre, member.1 ≠ name) → (∀ d, v ≠ .number d) →
      memberInt (pre ++ (name, v) :: post) name = 0) ∧
    -- a number that is not an integer in the range of `int`
    (∀ (name : QString) (pre post : QJsonObject) (d : Rat),
      (∀ member ∈ pre, member.1 ≠ name) →
      ¬ (d.den = 1 ∧ -2147483648 ≤ d.num ∧ d.num ≤ 2147483647) →
      memberInt (pre ++ (name, .number d) :: post) name = 0) ∧
    -- the other members
    (∀ other : QJsonObject,
      memberInt other (ascii "x") = memberInt object (ascii "x") →
      memberInt other (ascii "y") = memberInt object (ascii "y") →
      memberInt other (ascii "width") = memberInt object (ascii "width") →
      memberInt other (ascii "height") = memberInt object (ascii "height") →
      readRectangle (.object other) = readRectangle (.object object)) := by
  have hr : ∀ o : QJsonObject, readRectangle (.object o)
      = QRect.ofGeometry (memberInt o (ascii "x")) (memberInt o (ascii "y"))
          (memberInt o (ascii "width")) (memberInt o (ascii "height")) := by
    intro o
    simp only [readRectangle, value_toInt_eq_memberInt]
  have hrange : ∀ (o : QJsonObject) (name : QString),
      -2147483648 ≤ memberInt o name ∧ memberInt o name ≤ 2147483647 := by
    intro o name
    rw [← value_toInt_eq_memberInt]
    exact jsonToInt_range _
  refine ⟨?_, ?_, ?_, ?_, ?_, ?_⟩
  · rw [hr]
    exact ofGeometry_accessors _ _ _ _ (hrange _ _) (hrange _ _)
  · intro name pre post n hpre h1 h2
    simp [memberInt, find_first_member pre post name _ hpre, h1, h2]
  · intro name hmiss
    have hnone : object.find? (fun member => decide (member.1 = name)) = none := by
      rw [List.find?_eq_none]
      intro member hm
      simpa using hmiss member hm
    simp [memberInt, hnone]
  · intro name pre post v hpre hv
    simp only [memberInt, find_first_member pre post name _ hpre]
    cases v with
    | number d => exact absurd rfl (hv d)
    | _ => rfl
  · intro name pre post d hpre hd
    simp only [memberInt, find_first_member pre post name _ hpre, hd, if_false]
  · intro other hx hy hw hh
    rw [hr, hr, hx, hy, hw, hh]

/-- C12 at the example of the specification: the object with `x` 1, `y` 2,
`width` 3 and `height` 4 gives the rectangle with these four values. -/
theorem readRectangle_object_witness :
    (readRectangle (.object exampleGeometry)).x = 1 ∧
    (readRectangle (.object exampleGeometry)).y = 2 ∧
    (readRectangle (.object exampleGeometry)).width = 3 ∧
    (readRectangle (.object exampleGeometry)).height = 4 :=
  (readRectangle_object exampleGeometry).1

/-- The object of the example gives the rectangle the string `1, 2, 3, 4`
gives; a member that is not a number gives 0, a member that is missing gives
0, and a member of another name is ignored. -/
theorem object_rectangle_example :
    readRectangle (.object exampleGeometry) = readRectangle (.string (ascii "1, 2, 3, 4")) ∧
    readRectangle (.object [(ascii "x", .string (ascii "1")), (ascii "z", .number 9),
        (ascii "width", .number 3), (ascii "height", .null)])
      = QRect.ofGeometry 0 0 3 0 := by
  decide

/-- C13. Zero rectangle when the shape does not match: for a value that is
neither a string nor an object, and for a string that does not split on
commas into exactly four fields, the rectangle read is the null rectangle,
whose x, y, width and height are 0. -/
theorem readRectangle_zero (value : QJsonValue)
    (h : ((∀ s, value ≠ .string s) ∧ (∀ o, value ≠ .object o)) ∨
      ∃ s, value = .string s ∧ (splitOnSep COMMA s).length ≠ 4) :
    readRectangle value = QRect.null ∧
    (readRectangle value).x = 0 ∧ (readRectangle value).y = 0 ∧
    (readRectangle value).width = 0 ∧ (readRectangle value).height = 0 := by
  have hnull : readRectangle value = QRect.null := by
    rcases h with ⟨h1, h2⟩ | ⟨s, rfl, hs⟩
    · cases value with
      | string s => exact absurd rfl (h1 s)
      | object o => exact absurd rfl (h2 o)
      | _ => rfl
    · simp [readRectangle, hs]
  rw [hnull]
  exact ⟨rfl, rfl, rfl, by decide, by decide⟩

/-- C13 for a number, a boolean, null, an array, and for strings of one,
three and five fields. -/
theorem readRectangle_zero_witness :
    readRectangle (.number 5) = QRect.null ∧
    readRectangle (.bool true) = QRect.null ∧
    readRectangle .null = QRect.null ∧
    readRectangle (.array [.number 1, .number 2, .number 3, .number 4]) = QRect.null ∧
    readRectangle (.string (ascii "bad")) = QRect.null ∧
    readRectangle (.string (ascii "1,2,3")) = QRect.null ∧
    readRectangle (.string (ascii "1,2,3,4,5")) = QRect.null :=
  ⟨(readRectangle_zero (.number 5)
      (Or.inl ⟨fun _ h => QJsonValue.noConfusion h, fun _ h => QJsonValue.noConfusion h⟩)).1,
   (readRectangle_zero (.bool true)
      (Or.inl ⟨fun _ h => QJsonValue.noConfusion h, fun _ h => QJsonValue.noConfusion h⟩)).1,
   (readRectangle_zero .null
      (Or.inl ⟨fun _ h => QJsonValue.noConfusion h, fun _ h => QJsonValue.noConfusion h⟩)).1,
   (readRectangle_zero (.array [.number 1, .number 2, .number 3, .number 4])
      (Or.inl ⟨fun _ h => QJsonValue.noConfusion h, fun _ h => QJsonValue.noConfusion h⟩)).1,
   (readRectangle_zero (.string (ascii "bad")) (Or.inr ⟨_, rfl, by decide⟩)).1,
   (readRectangle_zero (.string (ascii "1,2,3")) (Or.inr ⟨_, rfl, by decide⟩)).1,
   (readRectangle_zero (.string (ascii "1,2,3,4,5")) (Or.inr ⟨_, rfl, by decide⟩)).1⟩

end Otter
